import Mathlib

/-!
# Verification of the StringPipeline repository

This file gives a shallow embedding of the string-processing pipeline:
the bounded thread-safe ring-buffer queue (`src/queue.c`, shipped here as
`src/unnamed/part_005`), the plugin worker threads (`src/plugins/lower.c`,
`src/plugins/test_upper.c` and the six plugins generated by `src/build.sh`),
the stdin reader / stdout writer endpoint threads, and the assembled
pipeline (`src/src/main_backup.c` and the `main.c` generated by
`src/build.sh`).

Items travelling through the pipeline are C strings; we model them as byte
lists.  Machine pointers only matter for the ownership claim, which gets a
dedicated heap-indexed model further below.  Each queue operation runs
entirely under the queue's mutex, so a concurrent execution is an
interleaving of atomic queue operations; blocking (`pthread_cond_wait`) is
modelled by a `wouldBlock` result that leaves the state unchanged — the
parked thread re-runs the operation when it is woken, which is exactly the
`while` re-check loop in the C code.
-/

/-- Byte strings: the payload type of the pipeline (C `char*` contents). -/
abbrev Bytes := List Nat

/-- Helper turning a Lean string literal into its byte list. -/
def bytes (s : String) : Bytes := s.toList.map Char.toNat

/-- The five sentinel bytes of the literal `<END>` line. -/
def endBytes : Bytes := bytes "<END>"

/-! ## The transform functions of the generated plugins (`src/build.sh`) -/

/-- C-locale `toupper` on one byte: fold `a`..`z` (97..122) to `A`..`Z`. -/
def toupperB (b : Nat) : Nat := if 97 ≤ b ∧ b ≤ 122 then b - 32 else b

/-- C-locale `tolower` on one byte: fold `A`..`Z` (65..90) to `a`..`z`. -/
def tolowerB (b : Nat) : Nat := if 65 ≤ b ∧ b ≤ 90 then b + 32 else b

/-- C-locale `isspace`: space, tab, newline, vertical tab, form feed, CR. -/
def isspaceB (b : Nat) : Bool := b = 32 ∨ b = 9 ∨ b = 10 ∨ b = 11 ∨ b = 12 ∨ b = 13

/-- `transform_upper` from the plugin generated by `build.sh` (lines 76-80):
`toupper` applied to every byte in place. -/
def transform_upper (input : Bytes) : Bytes := input.map toupperB

/-- `transform_lower` from `src/plugins/lower.c` lines 21-29 and the
generated plugin (`build.sh` lines 83-87): `tolower` on every byte. -/
def transform_lower (input : Bytes) : Bytes := input.map tolowerB

/-- `transform_reverse` from the generated plugin (`build.sh` lines 90-97):
reverse the byte sequence in place. -/
def transform_reverse (input : Bytes) : Bytes := input.reverse

/-- `transform_trim` from the generated plugin (`build.sh` lines 100-111):
`start` skips leading `isspace` bytes, `end` walks back over trailing
`isspace` bytes (stopping at `start`), and the substring between them is
kept.  For a string with a non-space byte this is exactly: drop the leading
spaces, then drop the trailing spaces; for an all-space string the result
is empty, as in the C code (`start` reaches the terminator). -/
def transform_trim (input : Bytes) : Bytes :=
  let start := input.dropWhile isspaceB
  (start.reverse.dropWhile isspaceB).reverse

/-- The `prefix` plugin transform generated by `build.sh` (lines 114-121):
`sprintf(prefixed, "PREFIX:%s", output)`.  (Name suffixed with `P` to keep
the identifier plain.) -/
def transform_prefixP (input : Bytes) : Bytes := bytes "PREFIX:" ++ input

/-- The `suffix` plugin transform generated by `build.sh` (lines 124-131):
`sprintf(suffixed, "%s:SUFFIX", output)`. -/
def transform_suffixP (input : Bytes) : Bytes := input ++ bytes ":SUFFIX"

/-! ## The bounded ring-buffer queue (`src/unnamed/part_005`, i.e. `queue.c`)

`queue_t` mirrors the C struct from `queue.h` (kept at the end of
`src/src/main_backup.c`): a ring buffer of string slots plus `capacity`,
`size`, `head`, `tail` and the one-shot `shutdown` flag.  The mutex and the
two condition variables carry no state beyond the blocking behaviour
described above, so they have no fields here. -/

structure queue_t where
  buffer : List (Option Bytes)
  capacity : Nat
  size : Nat
  head : Nat
  tail : Nat
  shutdown : Bool
  deriving Repr, DecidableEq

instance : Inhabited queue_t := ⟨⟨[], 0, 0, 0, 0, false⟩⟩

/-- Result of `queue_push`: `0` (ok), blocked in `pthread_cond_wait`
(`wouldBlock`, the state is unchanged and the operation is retried on
wake-up), or `QUEUE_SHUTDOWN` (-2). -/
inductive pushResult where
  | ok
  | wouldBlock
  | shutdown
  deriving Repr, DecidableEq

/-- Result of `queue_pop`: `0` with the dequeued string, blocked, or
`QUEUE_SHUTDOWN`. -/
inductive popResult where
  | ok (s : Bytes)
  | wouldBlock
  | shutdown
  deriving Repr, DecidableEq

/-- `queue_init` (queue.c lines 14-53): fails (`EINVAL`) on zero capacity,
otherwise a zeroed ring buffer of `capacity` slots. -/
def queue_init (capacity : Nat) : Option queue_t :=
  if capacity = 0 then none
  else some { buffer := List.replicate capacity none, capacity := capacity,
              size := 0, head := 0, tail := 0, shutdown := false }

/-- The successfully initialised queue of capacity `c` (the value of
`queue_init c` when `c > 0`); convenient total form. -/
def queue_mk (c : Nat) : queue_t :=
  { buffer := List.replicate c none, capacity := c,
    size := 0, head := 0, tail := 0, shutdown := false }

/-- `queue_push` (queue.c lines 86-129).  Under the mutex: return
`QUEUE_SHUTDOWN` if the flag is set (lines 95-98); wait while full and not
shut down (lines 101-103, modelled by `wouldBlock`; the re-check of
`shutdown` after the wait, lines 106-109, is the shutdown branch of the
retried call); otherwise store a copy of the string at `tail`, advance
`tail` modulo `capacity`, grow `size`, and signal `not_empty`
(lines 112-128). -/
def queue_push (q : queue_t) (str : Bytes) : pushResult × queue_t :=
  if q.shutdown then (.shutdown, q)
  else if q.capacity ≤ q.size then (.wouldBlock, q)
  else (.ok, { q with buffer := q.buffer.set q.tail (some str),
                      tail := (q.tail + 1) % q.capacity,
                      size := q.size + 1 })

/-- `queue_pop` (queue.c lines 134-165).  Wait while empty and not shut
down (lines 143-145); if shut down and empty return `QUEUE_SHUTDOWN`
(lines 148-152); otherwise take the string at `head`, null the slot,
advance `head` modulo `capacity`, shrink `size`, signal `not_full`
(lines 155-164). -/
def queue_pop (q : queue_t) : popResult × queue_t :=
  if q.size = 0 ∧ q.shutdown = false then (.wouldBlock, q)
  else if q.shutdown = true ∧ q.size = 0 then (.shutdown, q)
  else (.ok ((q.buffer.getD q.head none).getD []),
        { q with buffer := q.buffer.set q.head none,
                 head := (q.head + 1) % q.capacity,
                 size := q.size - 1 })

/-- `queue_shutdown` (queue.c lines 170-186): set the flag and broadcast
both condition variables (the broadcast has no state beyond waking the
parked threads, which re-run their operation). -/
def queue_shutdown (q : queue_t) : queue_t := { q with shutdown := true }

/-- The abstract FIFO content of the ring: the `size` slots starting at
`head`, wrapping modulo `capacity`, oldest first. -/
def absItems (q : queue_t) : List Bytes :=
  (List.range q.size).map (fun i => (q.buffer.getD ((q.head + i) % q.capacity) none).getD [])

/-- Well-formedness of a queue state: positive capacity, the buffer really
has `capacity` slots, `head` in range, `size` within capacity, `tail` the
slot past the live window, and every live slot non-null. -/
def queueInv (q : queue_t) : Prop :=
  0 < q.capacity ∧ q.buffer.length = q.capacity ∧ q.head < q.capacity ∧
  q.size ≤ q.capacity ∧ q.tail = (q.head + q.size) % q.capacity ∧
  ∀ i < q.size, q.buffer.getD ((q.head + i) % q.capacity) none ≠ none

instance (q : queue_t) : Decidable (queueInv q) := by
  unfold queueInv; infer_instance

theorem queue_init_eq (c : Nat) (h : c ≠ 0) : queue_init c = some (queue_mk c) := by
  simp [queue_init, queue_mk, h]

theorem queueInv_mk (c : Nat) (h : 0 < c) : queueInv (queue_mk c) := by
  refine ⟨h, ?_, h, ?_, ?_, ?_⟩ <;> simp [queue_mk]

theorem absItems_mk (c : Nat) : absItems (queue_mk c) = [] := by
  simp [absItems, queue_mk]

theorem absItems_length (q : queue_t) : (absItems q).length = q.size := by
  simp [absItems]

theorem absItems_shutdown (q : queue_t) : absItems (queue_shutdown q) = absItems q := rfl

theorem queueInv_shutdown (q : queue_t) (h : queueInv q) : queueInv (queue_shutdown q) := h

/-! ### Ring-buffer / abstract-list correspondence -/

theorem mod_add_ne {a i j n : Nat} (hi : i < n) (hj : j < n) (h : i ≠ j) :
    (a + i) % n ≠ (a + j) % n := by
  intro heq
  have hm : Nat.ModEq n i j := Nat.ModEq.add_left_cancel' a heq
  exact h (by rwa [Nat.ModEq, Nat.mod_eq_of_lt hi, Nat.mod_eq_of_lt hj] at hm)

theorem getD_set_ne {l : List α} {i j : Nat} {a d : α} (h : i ≠ j) :
    (l.set i a).getD j d = l.getD j d := by
  rw [List.getD, List.getD, List.get?_eq_getElem?, List.get?_eq_getElem?,
      List.getElem?_set_ne h]

theorem getD_set_self {l : List α} {i : Nat} {a d : α} (h : i < l.length) :
    (l.set i a).getD i d = a := by
  rw [List.getD, List.get?_eq_getElem?, List.getElem?_set_self h, Option.getD_some]

/-- A successful `queue_push` appends the item at the tail of the abstract
FIFO content, preserves well-formedness, and touches neither `shutdown` nor
`capacity`. -/
theorem queue_push_ok_spec (q : queue_t) (s : Bytes) (hq : queueInv q)
    (h1 : q.shutdown = false) (h2 : q.size < q.capacity) :
    (queue_push q s).1 = .ok ∧
    absItems (queue_push q s).2 = absItems q ++ [s] ∧
    queueInv (queue_push q s).2 ∧
    (queue_push q s).2.shutdown = q.shutdown ∧
    (queue_push q s).2.capacity = q.capacity ∧
    (queue_push q s).2.size = q.size + 1 := by
  obtain ⟨hc, hlen, hhead, hsize, htail, hfill⟩ := hq
  have hnb : ¬ q.capacity ≤ q.size := Nat.not_le.mpr h2
  have htlt : q.tail < q.capacity := htail ▸ Nat.mod_lt _ hc
  have htlen : q.tail < q.buffer.length := hlen ▸ htlt
  have hres : queue_push q s =
      (.ok, { q with buffer := q.buffer.set q.tail (some s),
                     tail := (q.tail + 1) % q.capacity,
                     size := q.size + 1 }) := by
    simp [queue_push, h1, hnb]
  rw [hres]
  refine ⟨rfl, ?_, ?_, by rw [h1], rfl, rfl⟩
  · simp only [absItems]
    rw [List.range_succ, List.map_append]
    congr 1
    · apply List.map_congr_left
      intro i hi
      have hilt : i < q.size := List.mem_range.mp hi
      have hne : q.tail ≠ (q.head + i) % q.capacity := by
        rw [htail]
        exact (mod_add_ne (lt_trans hilt h2) h2 (Nat.ne_of_lt hilt)).symm
      rw [getD_set_ne hne]
    · dsimp only [List.map_cons, List.map_nil]
      rw [← htail, getD_set_self htlen]
      rfl
  · refine ⟨hc, by rw [List.length_set]; exact hlen, hhead, h2, ?_, ?_⟩
    · dsimp only
      rw [htail, Nat.mod_add_mod, Nat.add_assoc]
    · intro i hi
      dsimp only
      rcases Nat.lt_succ_iff_lt_or_eq.mp hi with hlt | heq
      · have hne : q.tail ≠ (q.head + i) % q.capacity := by
          rw [htail]
          exact (mod_add_ne (lt_trans hlt h2) h2 (Nat.ne_of_lt hlt)).symm
        rw [getD_set_ne hne]
        exact hfill i hlt
      · subst heq
        rw [← htail, getD_set_self htlen]
        simp

theorem head_ne_shift {h c k : Nat} (hh : h < c) (hk : k < c) (h0 : k ≠ 0) :
    h ≠ (h + k) % c := by
  intro heq
  refine mod_add_ne (a := h) (lt_of_le_of_lt (Nat.zero_le _) hk) hk ?_ ?_
  · omega
  · rw [Nat.add_zero, Nat.mod_eq_of_lt hh]
    exact heq

/-- A `queue_pop` on a non-empty queue dequeues exactly the head of the
abstract FIFO content, preserves well-formedness, and touches neither
`shutdown` nor `capacity`. -/
theorem queue_pop_ok_spec (q : queue_t) (hq : queueInv q) (h2 : 0 < q.size) :
    (queue_pop q).1 = .ok ((q.buffer.getD q.head none).getD []) ∧
    absItems q = ((q.buffer.getD q.head none).getD []) :: absItems (queue_pop q).2 ∧
    queueInv (queue_pop q).2 ∧
    (queue_pop q).2.shutdown = q.shutdown ∧
    (queue_pop q).2.capacity = q.capacity ∧
    (queue_pop q).2.size = q.size - 1 := by
  obtain ⟨hc, hlen, hhead, hsize, htail, hfill⟩ := hq
  have hne0 : q.size ≠ 0 := Nat.pos_iff_ne_zero.mp h2
  have hhlen : q.head < q.buffer.length := hlen ▸ hhead
  have hres : queue_pop q =
      (.ok ((q.buffer.getD q.head none).getD []),
       { q with buffer := q.buffer.set q.head none,
                head := (q.head + 1) % q.capacity,
                size := q.size - 1 }) := by
    simp [queue_pop, hne0]
  rw [hres]
  refine ⟨rfl, ?_, ?_, rfl, rfl, rfl⟩
  · simp only [absItems]
    conv_lhs => rw [show q.size = (q.size - 1) + 1 from (Nat.succ_pred_eq_of_pos h2).symm]
    rw [List.range_succ_eq_map, List.map_cons, List.map_map]
    congr 1
    · rw [Nat.add_zero, Nat.mod_eq_of_lt hhead]
    · apply List.map_congr_left
      intro i hi
      have hilt : i < q.size - 1 := List.mem_range.mp hi
      have h1i : 1 + i < q.capacity := by omega
      have hne : q.head ≠ ((q.head + 1) % q.capacity + i) % q.capacity := by
        rw [Nat.mod_add_mod, Nat.add_assoc]
        exact head_ne_shift hhead h1i (by omega)
      simp only [Function.comp_apply]
      rw [getD_set_ne hne, Nat.mod_add_mod, Nat.add_assoc]
      have : 1 + i = i + 1 := Nat.add_comm 1 i
      rw [this]
  · refine ⟨hc, by rw [List.length_set]; exact hlen, Nat.mod_lt _ hc,
      by show q.size - 1 ≤ q.capacity; omega, ?_, ?_⟩
    · dsimp only
      rw [htail, Nat.mod_add_mod]
      congr 1
      omega
    · intro i hi
      dsimp only at hi ⊢
      have h1i : 1 + i < q.capacity := by omega
      have hne : q.head ≠ ((q.head + 1) % q.capacity + i) % q.capacity := by
        rw [Nat.mod_add_mod, Nat.add_assoc]
        exact head_ne_shift hhead h1i (by omega)
      rw [getD_set_ne hne, Nat.mod_add_mod, Nat.add_assoc]
      exact hfill (1 + i) (by omega)

/-- `queue_pop` on an empty, shut-down queue reports end-of-stream and
leaves the state unchanged (queue.c lines 148-152). -/
theorem queue_pop_end_spec (q : queue_t) (h1 : q.shutdown = true) (h2 : q.size = 0) :
    queue_pop q = (.shutdown, q) := by
  simp [queue_pop, h1, h2]

/-- `queue_pop` on an empty, open queue parks the caller (queue.c
lines 143-145); the state is unchanged. -/
theorem queue_pop_block_spec (q : queue_t) (h1 : q.shutdown = false) (h2 : q.size = 0) :
    queue_pop q = (.wouldBlock, q) := by
  simp [queue_pop, h1, h2]

/-- `queue_push` on a shut-down queue reports `QUEUE_SHUTDOWN` and leaves
the state unchanged (queue.c lines 95-98 and 106-109). -/
theorem queue_push_shutdown_spec (q : queue_t) (s : Bytes) (h : q.shutdown = true) :
    queue_push q s = (.shutdown, q) := by
  simp [queue_push, h]

/-- `queue_push` on a full, open queue parks the caller (queue.c
lines 101-103); the state is unchanged. -/
theorem queue_push_block_spec (q : queue_t) (s : Bytes) (h1 : q.shutdown = false)
    (h2 : q.capacity ≤ q.size) : queue_push q s = (.wouldBlock, q) := by
  simp [queue_push, h1, h2]

/-! ## Claim C4: close rejects pushes -/

/-- C4: if a queue is shut down when `queue_push` is entered, the push
returns `QUEUE_SHUTDOWN` and enqueues nothing (the state — items, size,
head, tail — is returned unchanged); and if the pusher was parked on a
full open queue when `queue_shutdown` arrives, the retried push (the
re-check after `pthread_cond_wait`) likewise returns `QUEUE_SHUTDOWN`
with the items, size, head and tail untouched. -/
theorem C4_closed_push_rejected :
    (∀ (q : queue_t) (s : Bytes), q.shutdown = true →
       queue_push q s = (.shutdown, q)) ∧
    (∀ (q : queue_t) (s : Bytes), q.shutdown = false → q.capacity ≤ q.size →
       queue_push q s = (.wouldBlock, q) ∧
       queue_push (queue_shutdown q) s = (.shutdown, queue_shutdown q) ∧
       absItems (queue_shutdown q) = absItems q ∧
       (queue_shutdown q).size = q.size ∧
       (queue_shutdown q).head = q.head ∧
       (queue_shutdown q).tail = q.tail) := by
  constructor
  · intro q s h
    exact queue_push_shutdown_spec q s h
  · intro q s h1 h2
    exact ⟨queue_push_block_spec q s h1 h2,
           queue_push_shutdown_spec _ s rfl, rfl, rfl, rfl, rfl⟩

/-- Witness for C4 at concrete inputs: a shut-down capacity-2 queue
rejects a push, and a full open capacity-1 queue blocks a push which is
then rejected once the queue is shut down. -/
theorem C4_closed_push_rejected_witness :
    queue_push (queue_shutdown (queue_mk 2)) [120] = (.shutdown, queue_shutdown (queue_mk 2)) ∧
    queue_push ((queue_push (queue_mk 1) [97]).2) [98] = (.wouldBlock, (queue_push (queue_mk 1) [97]).2) :=
  ⟨C4_closed_push_rejected.1 (queue_shutdown (queue_mk 2)) [120] rfl,
   (C4_closed_push_rejected.2 ((queue_push (queue_mk 1) [97]).2) [98] (by decide) (by decide)).1⟩

/-! ## Claim C6: capacity invariant -/

/-- C6: a queue constructed with capacity `C > 0` satisfies
`size ≤ capacity = C`, the well-formedness invariant holds after
construction and is preserved by `queue_push`, `queue_pop` and
`queue_shutdown`, and a push on a full queue (`size = capacity`) never
enqueues: it returns the state unchanged and does not report ok. -/
theorem C6_capacity_invariant :
    (∀ (c : Nat) (q : queue_t), queue_init c = some q →
       queueInv q ∧ q.size ≤ q.capacity ∧ q.capacity = c) ∧
    (∀ (q : queue_t) (s : Bytes), queueInv q →
       queueInv (queue_push q s).2 ∧ (queue_push q s).2.size ≤ q.capacity ∧
       (q.size = q.capacity → (queue_push q s).2 = q ∧ (queue_push q s).1 ≠ .ok)) ∧
    (∀ q : queue_t, queueInv q →
       queueInv (queue_pop q).2 ∧ (queue_pop q).2.size ≤ q.capacity) ∧
    (∀ q : queue_t, queueInv q →
       queueInv (queue_shutdown q) ∧ (queue_shutdown q).size ≤ q.capacity) := by
  refine ⟨?_, ?_, ?_, ?_⟩
  · intro c q h
    by_cases hc : c = 0
    · simp [queue_init, hc] at h
    · rw [queue_init_eq c hc] at h
      cases h
      exact ⟨queueInv_mk c (Nat.pos_of_ne_zero hc), Nat.zero_le _, rfl⟩
  · intro q s hq
    by_cases hs : q.shutdown = true
    · rw [queue_push_shutdown_spec q s hs]
      exact ⟨hq, hq.2.2.2.1, fun _ => ⟨rfl, by simp⟩⟩
    · have hs' : q.shutdown = false := Bool.not_eq_true _ |>.mp hs
      by_cases hf : q.capacity ≤ q.size
      · rw [queue_push_block_spec q s hs' hf]
        exact ⟨hq, hq.2.2.2.1, fun _ => ⟨rfl, by simp⟩⟩
      · have hlt : q.size < q.capacity := Nat.not_le.mp hf
        obtain ⟨-, -, hinv, -, -, hsz⟩ := queue_push_ok_spec q s hq hs' hlt
        exact ⟨hinv, by omega, fun he => absurd he (Nat.ne_of_lt hlt)⟩
  · intro q hq
    by_cases h0 : q.size = 0
    · by_cases hs : q.shutdown = true
      · rw [queue_pop_end_spec q hs h0]
        exact ⟨hq, hq.2.2.2.1⟩
      · rw [queue_pop_block_spec q (Bool.not_eq_true _ |>.mp hs) h0]
        exact ⟨hq, hq.2.2.2.1⟩
    · obtain ⟨-, -, hinv, -, -, hsz⟩ := queue_pop_ok_spec q hq (Nat.pos_of_ne_zero h0)
      have := hq.2.2.2.1
      exact ⟨hinv, by omega⟩
  · intro q hq
    exact ⟨queueInv_shutdown q hq, hq.2.2.2.1⟩

/-- Witness for C6 at a concrete input: the capacity-2 queue from
`queue_init` is well-formed and a push on the full queue leaves it
unchanged. -/
theorem C6_capacity_invariant_witness :
    queueInv (queue_mk 2) ∧
    (queue_push ((queue_push ((queue_push (queue_mk 2) [97]).2) [98]).2) [99]).2
      = ((queue_push ((queue_push (queue_mk 2) [97]).2) [98]).2) :=
  ⟨(C6_capacity_invariant.1 2 (queue_mk 2) (queue_init_eq 2 (by decide))).1,
   ((C6_capacity_invariant.2.1 ((queue_push ((queue_push (queue_mk 2) [97]).2) [98]).2) [99]
      (by decide)).2.2 (by decide)).1⟩

/-! ## Claim C1: post-close drain -/

/-- Repeated `queue_pop` calls, collecting the delivered strings until the
first non-ok result (the consumer loop pattern of `output_thread` and the
plugin workers). -/
def popLoop : Nat → queue_t → (List Bytes × queue_t)
  | 0, q => ([], q)
  | n + 1, q =>
    match (queue_pop q).1 with
    | .ok v =>
      let r := popLoop n (queue_pop q).2
      (v :: r.1, r.2)
    | _ => ([], (queue_pop q).2)

theorem popLoop_drain : ∀ (n : Nat) (q : queue_t), queueInv q → q.shutdown = true →
    q.size = n →
    (popLoop n q).1 = absItems q ∧ (popLoop n q).2.size = 0 ∧
    (popLoop n q).2.shutdown = true ∧ queueInv (popLoop n q).2 := by
  intro n
  induction n with
  | zero =>
    intro q hq hs h0
    have : absItems q = [] := List.eq_nil_of_length_eq_zero (by rw [absItems_length, h0])
    exact ⟨this.symm, h0, hs, hq⟩
  | succ n ih =>
    intro q hq hs hsz
    have hpos : 0 < q.size := by omega
    obtain ⟨h1, h2, h3, h4, -, h6⟩ := queue_pop_ok_spec q hq hpos
    obtain ⟨ih1, ih2, ih3, ih4⟩ := ih (queue_pop q).2 h3 (by rw [h4]; exact hs) (by omega)
    refine ⟨?_, ?_, ?_, ?_⟩ <;> simp only [popLoop, h1] <;>
      [skip; exact ih2; exact ih3; exact ih4]
    rw [ih1, ← h2]

/-- C1: closing a queue removes no items (`queue_shutdown` only sets the
flag), and for a queue holding `m = size` items at the moment of the
shutdown, the next `m` pops deliver exactly those items in FIFO order and
the `(m+1)`-th pop reports `QUEUE_SHUTDOWN`. -/
theorem C1_post_close_drain (q : queue_t) (hq : queueInv q) :
    absItems (queue_shutdown q) = absItems q ∧
    (popLoop q.size (queue_shutdown q)).1 = absItems q ∧
    (queue_pop ((popLoop q.size (queue_shutdown q)).2)).1 = .shutdown := by
  have hinv : queueInv (queue_shutdown q) := queueInv_shutdown q hq
  obtain ⟨d1, d2, d3, d4⟩ :=
    popLoop_drain q.size (queue_shutdown q) hinv rfl rfl
  refine ⟨rfl, by rw [d1, absItems_shutdown], ?_⟩
  rw [queue_pop_end_spec _ d3 d2]

/-- Witness for C1: a queue of capacity 3 holding the two items `[97]`
and `[98]` is closed; the two pops drain exactly those, the third pop
reports shutdown. -/
theorem C1_post_close_drain_witness :
    absItems ((queue_push ((queue_push (queue_mk 3) [97]).2) [98]).2) = [[97], [98]] ∧
    (popLoop 2 (queue_shutdown ((queue_push ((queue_push (queue_mk 3) [97]).2) [98]).2))).1
      = [[97], [98]] ∧
    (queue_pop ((popLoop 2 (queue_shutdown ((queue_push ((queue_push (queue_mk 3) [97]).2) [98]).2))).2)).1
      = .shutdown := by
  have h := C1_post_close_drain ((queue_push ((queue_push (queue_mk 3) [97]).2) [98]).2) (by decide)
  exact ⟨by decide, by rw [show ((queue_push ((queue_push (queue_mk 3) [97]).2) [98]).2).size = 2 from rfl] at h; rw [h.2.1]; decide, by rw [show ((queue_push ((queue_push (queue_mk 3) [97]).2) [98]).2).size = 2 from rfl] at h; exact h.2.2⟩

/-! ## Claim C5: the ring buffer refines an abstract bounded FIFO list -/

/-- Modelled from the spec: the abstract bounded FIFO buffer of §3/§4.2 —
an ordered item sequence of length at most `cap` plus a one-shot `closed`
flag.  This is the spec-side model the ring implementation is compared
with. -/
structure absQueue where
  items : List Bytes
  cap : Nat
  closed : Bool
  deriving Repr, DecidableEq

/-- Modelled from the spec §4.2 `push`: closed rejects, full blocks,
otherwise the item is appended at the tail. -/
def absPush (a : absQueue) (s : Bytes) : pushResult × absQueue :=
  if a.closed then (.shutdown, a)
  else if a.cap ≤ a.items.length then (.wouldBlock, a)
  else (.ok, { a with items := a.items ++ [s] })

/-- Modelled from the spec §4.2 `pop`: empty-and-open blocks,
empty-and-closed reports end, otherwise the head item is removed. -/
def absPop (a : absQueue) : popResult × absQueue :=
  match a.items with
  | [] => if a.closed then (.shutdown, a) else (.wouldBlock, a)
  | v :: rest => (.ok v, { a with items := rest })

/-- Modelled from the spec §4.2 `close`: set the flag. -/
def absClose (a : absQueue) : absQueue := { a with closed := true }

/-- The abstraction function from the concrete ring state. -/
def toAbs (q : queue_t) : absQueue := ⟨absItems q, q.capacity, q.shutdown⟩

/-- An operation of a queue client. -/
inductive qop where
  | push (s : Bytes)
  | pop
  | close
  deriving Repr, DecidableEq

/-- Run a sequence of operations against a concrete queue, collecting the
successfully pushed values and the popped values (in order). -/
def runOps : List qop → queue_t → (List Bytes × List Bytes × queue_t)
  | [], q => ([], [], q)
  | qop.push s :: rest, q =>
    match (queue_push q s).1 with
    | .ok =>
      let r := runOps rest (queue_push q s).2
      (s :: r.1, r.2.1, r.2.2)
    | _ =>
      let r := runOps rest (queue_push q s).2
      (r.1, r.2.1, r.2.2)
  | qop.pop :: rest, q =>
    match (queue_pop q).1 with
    | .ok v =>
      let r := runOps rest (queue_pop q).2
      (r.1, v :: r.2.1, r.2.2)
    | _ =>
      let r := runOps rest (queue_pop q).2
      (r.1, r.2.1, r.2.2)
  | qop.close :: rest, q => runOps rest (queue_shutdown q)

theorem runOps_fifo : ∀ (ops : List qop) (q : queue_t), queueInv q →
    absItems q ++ (runOps ops q).1 = (runOps ops q).2.1 ++ absItems (runOps ops q).2.2 := by
  intro ops
  induction ops with
  | nil => intro q _; simp [runOps]
  | cons op rest ih =>
    intro q hq
    cases op with
    | push s =>
      by_cases hs : q.shutdown = true
      · have h := queue_push_shutdown_spec q s hs
        simpa [runOps, h] using ih q hq
      · have hs' : q.shutdown = false := Bool.not_eq_true _ |>.mp hs
        by_cases hf : q.capacity ≤ q.size
        · have h := queue_push_block_spec q s hs' hf
          simpa [runOps, h] using ih q hq
        · obtain ⟨h1, h2, h3, -, -, -⟩ :=
            queue_push_ok_spec q s hq hs' (Nat.not_le.mp hf)
          have := ih (queue_push q s).2 h3
          simp only [runOps, h1]
          rw [show absItems q ++ s :: (runOps rest (queue_push q s).2).1
                = (absItems q ++ [s]) ++ (runOps rest (queue_push q s).2).1 by simp, ← h2]
          exact this
    | pop =>
      by_cases h0 : q.size = 0
      · have habs : absItems q = [] :=
          List.eq_nil_of_length_eq_zero (by rw [absItems_length, h0])
        by_cases hs : q.shutdown = true
        · have h := queue_pop_end_spec q hs h0
          simpa [runOps, h, habs] using ih q hq
        · have h := queue_pop_block_spec q (Bool.not_eq_true _ |>.mp hs) h0
          simpa [runOps, h, habs] using ih q hq
      · obtain ⟨h1, h2, h3, -, -, -⟩ := queue_pop_ok_spec q hq (Nat.pos_of_ne_zero h0)
        have := ih (queue_pop q).2 h3
        simp only [runOps, h1]
        rw [h2]
        simpa using this
    | close =>
      have := ih (queue_shutdown q) (queueInv_shutdown q hq)
      simpa [runOps, absItems_shutdown] using this

/-- C5: the head/tail ring buffer is observationally the abstract bounded
FIFO list: each operation commutes with the abstraction function `toAbs`
(same result, abstracted state), and consequently over any operation
sequence on a freshly constructed queue the successfully pushed values are
exactly the popped values followed by what is still enqueued — so a
consumer that drains the buffer observes precisely the producer's pushed
sequence `[x0, x1, ..., xk]` in order. -/
theorem C5_ring_refines_abstract_fifo :
    (∀ (q : queue_t) (s : Bytes), queueInv q →
       (queue_push q s).1 = (absPush (toAbs q) s).1 ∧
       toAbs (queue_push q s).2 = (absPush (toAbs q) s).2) ∧
    (∀ q : queue_t, queueInv q →
       (queue_pop q).1 = (absPop (toAbs q)).1 ∧
       toAbs (queue_pop q).2 = (absPop (toAbs q)).2) ∧
    (∀ q : queue_t, toAbs (queue_shutdown q) = absClose (toAbs q)) ∧
    (∀ (ops : List qop) (c : Nat) (q0 : queue_t), queue_init c = some q0 →
       (runOps ops q0).1 = (runOps ops q0).2.1 ++ absItems (runOps ops q0).2.2) := by
  refine ⟨?_, ?_, ?_, ?_⟩
  · intro q s hq
    by_cases hs : q.shutdown = true
    · rw [queue_push_shutdown_spec q s hs]
      simp [absPush, toAbs, hs]
    · have hs' : q.shutdown = false := Bool.not_eq_true _ |>.mp hs
      by_cases hf : q.capacity ≤ q.size
      · rw [queue_push_block_spec q s hs' hf]
        simp [absPush, toAbs, hs', absItems_length, hf]
      · obtain ⟨h1, h2, -, h4, h5, -⟩ := queue_push_ok_spec q s hq hs' (Nat.not_le.mp hf)
        have hfl : ¬ q.capacity ≤ (absItems q).length := by
          rw [absItems_length]; exact hf
        constructor
        · rw [h1]; simp [absPush, toAbs, hs', hfl]
        · simp [absPush, toAbs, hs', hfl, h2, h4, h5]
  · intro q hq
    by_cases h0 : q.size = 0
    · have habs : absItems q = [] :=
        List.eq_nil_of_length_eq_zero (by rw [absItems_length, h0])
      by_cases hs : q.shutdown = true
      · rw [queue_pop_end_spec q hs h0]
        simp [absPop, toAbs, habs, hs]
      · have hs' : q.shutdown = false := Bool.not_eq_true _ |>.mp hs
        rw [queue_pop_block_spec q hs' h0]
        simp [absPop, toAbs, habs, hs']
    · obtain ⟨h1, h2, -, h4, h5, -⟩ := queue_pop_ok_spec q hq (Nat.pos_of_ne_zero h0)
      constructor
      · rw [h1]; simp [absPop, toAbs, h2]
      · simp [absPop, toAbs, h2, h4, h5]
  · intro q
    simp only [toAbs, absClose, queue_shutdown]
    exact congrArg (fun l => absQueue.mk l q.capacity true) (absItems_shutdown q)
  · intro ops c q0 h
    by_cases hc : c = 0
    · simp [queue_init, hc] at h
    · rw [queue_init_eq c hc] at h
      cases h
      have := runOps_fifo ops (queue_mk c) (queueInv_mk c (Nat.pos_of_ne_zero hc))
      rwa [absItems_mk, List.nil_append] at this

/-- Witness for C5 at concrete inputs: the operation trace
push 97, push 98, pop, pop on a fresh capacity-2 queue pushes `[97],[98]`
and pops the same sequence, and one concrete push commutes with the
abstraction. -/
theorem C5_ring_refines_abstract_fifo_witness :
    ((runOps [qop.push [97], qop.push [98], qop.pop, qop.pop] (queue_mk 2)).1
       = (runOps [qop.push [97], qop.push [98], qop.pop, qop.pop] (queue_mk 2)).2.1
         ++ absItems (runOps [qop.push [97], qop.push [98], qop.pop, qop.pop] (queue_mk 2)).2.2) ∧
    toAbs (queue_push (queue_mk 2) [97]).2 = (absPush (toAbs (queue_mk 2)) [97]).2 :=
  ⟨C5_ring_refines_abstract_fifo.2.2.2 [qop.push [97], qop.push [98], qop.pop, qop.pop]
      2 (queue_mk 2) (queue_init_eq 2 (by decide)),
   (C5_ring_refines_abstract_fifo.1 (queue_mk 2) [97] (by decide)).2⟩

/-! ## Claim C9: transform composition -/

/-- C9: applying the six pure transforms in the order trim, upper,
reverse, prefix, suffix, lower to the line `  hello  ` yields exactly
`prefix:olleh:suffix`, and `toupper`/`tolower` fold only the ASCII letter
ranges, leaving every other byte unchanged. -/
theorem C9_transform_composition :
    transform_lower (transform_suffixP (transform_prefixP
        (transform_reverse (transform_upper (transform_trim (bytes "  hello  "))))))
      = bytes "prefix:olleh:suffix" ∧
    (∀ b : Nat, ¬ (97 ≤ b ∧ b ≤ 122) → toupperB b = b) ∧
    (∀ b : Nat, ¬ (65 ≤ b ∧ b ≤ 90) → tolowerB b = b) := by
  refine ⟨by decide, ?_, ?_⟩
  · intro b hb
    simp [toupperB, hb]
  · intro b hb
    simp [tolowerB, hb]

/-- Witness for C9: the digit byte `0` (48) is not an ASCII letter and is
left unchanged by both case folds. -/
theorem C9_transform_composition_witness :
    toupperB 48 = 48 ∧ tolowerB 48 = 48 :=
  ⟨C9_transform_composition.2.1 48 (by decide),
   C9_transform_composition.2.2 48 (by decide)⟩

/-! ## The input reader thread (`input_thread` in `src/src/main_backup.c`
lines 23-42 = the generated `main.c`, `src/build.sh` lines 257-276)

Standard input is a byte stream.  `fgets(line, 1024, stdin)` fills a
1024-byte buffer: it reads at most 1023 bytes, stopping after the first
newline, and returns NULL at end of file.  The reader strips one trailing
newline, calls `queue_shutdown` on buffer 0 and stops when the chunk
equals `<END>`, and otherwise pushes the chunk.  We record the reader's
interaction trace: the pushed items in order, and whether
`queue_shutdown(&queues[0])` was called before the thread returned. -/

/-- Read at most `n` bytes from the stream, stopping after a newline
(byte 10): the buffer-filling core of `fgets`. -/
def readUpTo : Nat → List Nat → (List Nat × List Nat)
  | 0, s => ([], s)
  | _ + 1, [] => ([], [])
  | n + 1, b :: rest =>
    if b = 10 then ([b], rest)
    else
      let r := readUpTo n rest
      (b :: r.1, r.2)

/-- `fgets(line, 1024, stdin)`: NULL at end of file, otherwise up to 1023
bytes ending at the first newline. -/
def fgets1024 (stdin : List Nat) : Option (List Nat × List Nat) :=
  if stdin = [] then none else some (readUpTo 1023 stdin)

/-- Strip one trailing newline
(`if (len > 0 && line[len-1] == '\n') line[len-1] = '\0';`). -/
def chomp (l : List Nat) : List Nat :=
  if l.getLast? = some 10 then l.dropLast else l

/-- The reader loop body, with fuel bounding the number of `fgets` calls
(each consumes at least one byte, so `stdin.length` fuel suffices).
Returns the pushed chunks in order, and whether the reader called
`queue_shutdown` on buffer 0 before returning.  Note the EOF branch
(`fgets` returns NULL): the loop simply ends — no shutdown. -/
def input_loop : Nat → List Nat → (List Bytes × Bool)
  | 0, _ => ([], false)
  | fuel + 1, stdin =>
    match fgets1024 stdin with
    | none => ([], false)
    | some (buf, rest) =>
      let line := chomp buf
      if line = endBytes then ([], true)
      else
        let r := input_loop fuel rest
        (line :: r.1, r.2)

/-- The reader thread on a given stdin byte stream. -/
def input_thread (stdin : List Nat) : List Bytes × Bool :=
  input_loop stdin.length stdin

theorem readUpTo_len_le : ∀ (n : Nat) (s : List Nat), (readUpTo n s).2.length ≤ s.length := by
  intro n
  induction n with
  | zero => intro s; simp [readUpTo]
  | succ n ih =>
    intro s
    cases s with
    | nil => simp [readUpTo]
    | cons b rest =>
      by_cases hb : b = 10
      · simp [readUpTo, hb]
      · simp only [readUpTo, hb, if_false]
        exact le_trans (ih rest) (Nat.le_succ _)

theorem readUpTo_len_lt : ∀ (n : Nat) (b : Nat) (rest : List Nat),
    (readUpTo (n + 1) (b :: rest)).2.length < (b :: rest).length := by
  intro n b rest
  by_cases hb : b = 10
  · simp [readUpTo, hb]
  · simp only [readUpTo, hb, if_false]
    exact Nat.lt_succ_of_le (readUpTo_len_le n rest)

theorem input_loop_nil : ∀ n : Nat, input_loop n [] = ([], false) := by
  intro n
  cases n <;> simp [input_loop, fgets1024]

/-- The reader loop result does not depend on the fuel, as long as the
fuel covers the stream length. -/
theorem input_loop_fuel : ∀ (n m : Nat) (stdin : List Nat),
    stdin.length ≤ n → stdin.length ≤ m → input_loop n stdin = input_loop m stdin := by
  intro n
  induction n with
  | zero =>
    intro m stdin hn _
    have : stdin = [] := List.eq_nil_of_length_eq_zero (Nat.le_zero.mp hn)
    subst this
    rw [input_loop_nil, input_loop_nil]
  | succ n ih =>
    intro m stdin hn hm
    cases stdin with
    | nil => rw [input_loop_nil, input_loop_nil]
    | cons b rest =>
      cases m with
      | zero => simp at hm
      | succ m =>
        have hconsume : (readUpTo 1023 (b :: rest)).2.length < (b :: rest).length := by
          have := readUpTo_len_lt 1022 b rest
          norm_num at this
          exact this
        simp only [input_loop, fgets1024, if_neg (List.cons_ne_nil b rest)]
        have hrec : input_loop n (readUpTo 1023 (b :: rest)).2
            = input_loop m (readUpTo 1023 (b :: rest)).2 := by
          apply ih
          · simp only [List.length_cons] at hconsume hn ⊢
            omega
          · simp only [List.length_cons] at hconsume hm ⊢
            omega
        rw [hrec]

/-! ## Claim C3: reader behaviour at EOF without `<END>` -/

/-- C3 (failing input): feeding the reader the stream `hello\n` followed
by end-of-file, the reader pushes `hello` and then returns WITHOUT calling
`queue_shutdown` on buffer 0 — the `while (fgets(...))` loop just falls
through on NULL (main_backup.c lines 27-41, generated main.c the same).
The spec (and the generated main's own comment, "Input thread has already
shut down the first queue") require buffer 0 to be closed on EOF. -/
theorem C3_reader_eof_without_end_no_close :
    input_thread (bytes "hello" ++ [10]) = ([bytes "hello"], false) ∧
    input_thread [] = ([], false) := by
  constructor
  · decide
  · decide

/-! ## Claim C10: the 1024-byte read buffer splits long lines -/

/-- The chunks `fgets` with a 1024-byte buffer produces for one
newline-terminated line: full 1023-byte chunks, then the (possibly empty)
remainder.  Fuel-passing structural version. -/
def splitLineF : Nat → Bytes → List Bytes
  | 0, l => [l]
  | f + 1, l =>
    if l.length < 1023 then [l]
    else l.take 1023 :: splitLineF f (l.drop 1023)

/-- The chunk decomposition of one line (fuel `l.length` always
suffices since every step removes 1023 bytes). -/
def splitLine (l : Bytes) : List Bytes := splitLineF l.length l

theorem splitLineF_fuel : ∀ (f1 f2 : Nat) (l : Bytes),
    l.length ≤ f1 → l.length ≤ f2 → splitLineF f1 l = splitLineF f2 l := by
  intro f1
  induction f1 with
  | zero =>
    intro f2 l h1 _
    have h0 : l.length = 0 := Nat.le_zero.mp h1
    have hlt : l.length < 1023 := by omega
    cases f2 with
    | zero => rfl
    | succ f2 => simp [splitLineF, hlt]
  | succ f1 ih =>
    intro f2 l h1 h2
    by_cases hlt : l.length < 1023
    · cases f2 with
      | zero =>
        have : l.length = 0 := Nat.le_zero.mp h2
        simp [splitLineF, hlt]
      | succ f2 => simp [splitLineF, hlt]
    · cases f2 with
      | zero => omega
      | succ f2 =>
        simp only [splitLineF, hlt, if_false]
        have hdrop : (l.drop 1023).length = l.length - 1023 := List.length_drop 1023 l
        rw [ih f2 (l.drop 1023) (by omega) (by omega)]

theorem splitLine_short (l : Bytes) (h : l.length < 1023) : splitLine l = [l] := by
  rw [splitLine]
  cases hl : l.length with
  | zero => rfl
  | succ k =>
    simp only [splitLineF]
    rw [if_pos h]

theorem splitLine_long (l : Bytes) (h : 1023 ≤ l.length) :
    splitLine l = l.take 1023 :: splitLine (l.drop 1023) := by
  rw [splitLine]
  cases hl : l.length with
  | zero => omega
  | succ k =>
    simp only [splitLineF]
    rw [if_neg (by omega)]
    congr 1
    apply splitLineF_fuel
    · have := List.length_drop 1023 l
      omega
    · exact le_refl _

theorem splitLine_ne_nil (l : Bytes) : splitLine l ≠ [] := by
  rw [splitLine]
  cases hl : l.length with
  | zero => simp [splitLineF]
  | succ k =>
    by_cases hlt : l.length < 1023 <;> simp [splitLineF, hlt]

theorem readUpTo_no_nl_full : ∀ (l s : List Nat), (∀ b ∈ l, b ≠ 10) →
    readUpTo l.length (l ++ s) = (l, s) := by
  intro l
  induction l with
  | nil => intro s _; simp [readUpTo]
  | cons b t ih =>
    intro s hnl
    have hb : b ≠ 10 := hnl b (List.mem_cons_self b t)
    simp only [List.length_cons, List.cons_append, readUpTo, hb, if_false, List.append_eq]
    rw [ih s (fun x hx => hnl x (List.mem_cons_of_mem b hx))]

theorem readUpTo_nl : ∀ (l : List Nat) (n : Nat) (rest : List Nat), (∀ b ∈ l, b ≠ 10) →
    l.length < n → readUpTo n (l ++ 10 :: rest) = (l ++ [10], rest) := by
  intro l
  induction l with
  | nil =>
    intro n rest _ hn
    cases n with
    | zero => omega
    | succ n => simp [readUpTo]
  | cons b t ih =>
    intro n rest hnl hn
    cases n with
    | zero => omega
    | succ n =>
      have hb : b ≠ 10 := hnl b (List.mem_cons_self b t)
      simp only [List.cons_append, readUpTo, hb, if_false, List.append_eq]
      rw [ih n rest (fun x hx => hnl x (List.mem_cons_of_mem b hx))
        (by simp only [List.length_cons] at hn; omega)]

theorem chomp_concat_nl (l : List Nat) : chomp (l ++ [10]) = l := by
  rw [chomp, if_pos (List.getLast?_concat l), List.dropLast_concat]

theorem chomp_no_nl (l : List Nat) (h : ∀ b ∈ l, b ≠ 10) : chomp l = l := by
  rw [chomp]
  split
  · next h' =>
    obtain ⟨hne, heq⟩ := List.mem_getLast?_eq_getLast (Option.mem_def.mpr h')
    exact absurd rfl (h 10 (heq ▸ List.getLast_mem hne))
  · rfl

theorem input_loop_step_short (line : Bytes) (rest : List Nat) (fuel : Nat)
    (hlt : line.length < 1023) (hnl : ∀ b ∈ line, b ≠ 10)
    (hfe : (line ++ 10 :: rest).length ≤ fuel) (hne : line ≠ endBytes) :
    input_loop fuel (line ++ 10 :: rest)
      = (line :: (input_thread rest).1, (input_thread rest).2) := by
  cases fuel with
  | zero => simp at hfe
  | succ f =>
    have hstream : (line ++ 10 :: rest) ≠ [] := by simp
    simp only [input_loop, fgets1024, if_neg hstream]
    rw [readUpTo_nl line 1023 rest hnl hlt, chomp_concat_nl, if_neg hne]
    have hrw : input_loop f rest = input_thread rest := by
      rw [input_thread]
      apply input_loop_fuel
      · simp only [List.length_append, List.length_cons] at hfe
        omega
      · exact le_refl _
    rw [hrw]

theorem input_loop_step_long (line : Bytes) (rest : List Nat) (fuel : Nat)
    (hge : 1023 ≤ line.length) (hnl : ∀ b ∈ line, b ≠ 10)
    (hfe : (line ++ 10 :: rest).length ≤ fuel) (hne : line.take 1023 ≠ endBytes) :
    input_loop fuel (line ++ 10 :: rest)
      = (line.take 1023 :: (input_loop (fuel - 1) (line.drop 1023 ++ 10 :: rest)).1,
         (input_loop (fuel - 1) (line.drop 1023 ++ 10 :: rest)).2) := by
  cases fuel with
  | zero => simp at hfe
  | succ f =>
    have hstream : (line ++ 10 :: rest) ≠ [] := by simp
    have hnltk : ∀ b ∈ line.take 1023, b ≠ 10 :=
      fun b hb => hnl b (List.take_subset 1023 line hb)
    have htk : (line.take 1023).length = 1023 := by
      rw [List.length_take]
      omega
    have hread0 := readUpTo_no_nl_full (line.take 1023) (line.drop 1023 ++ 10 :: rest) hnltk
    rw [htk, ← List.append_assoc, List.take_append_drop] at hread0
    simp only [input_loop, fgets1024, if_neg hstream]
    rw [hread0, chomp_no_nl _ hnltk, if_neg hne]
    simp only [Nat.succ_sub_one]

theorem input_loop_split : ∀ (n : Nat) (line : Bytes) (rest : List Nat) (fuel : Nat),
    line.length ≤ n → (line ++ 10 :: rest).length ≤ fuel →
    (∀ b ∈ line, b ≠ 10) → (∀ c ∈ splitLine line, c ≠ endBytes) →
    input_loop fuel (line ++ 10 :: rest)
      = (splitLine line ++ (input_thread rest).1, (input_thread rest).2) := by
  intro n
  induction n with
  | zero =>
    intro line rest fuel h0 hf hnl hne
    have hlt : line.length < 1023 := by omega
    rw [input_loop_step_short line rest fuel hlt hnl hf
        (hne line (by rw [splitLine_short line hlt]; exact List.mem_singleton_self line)),
      splitLine_short line hlt, List.singleton_append]
  | succ n ih =>
    intro line rest fuel hn hf hnl hne
    by_cases hlt : line.length < 1023
    · rw [input_loop_step_short line rest fuel hlt hnl hf
          (hne line (by rw [splitLine_short line hlt]; exact List.mem_singleton_self line)),
        splitLine_short line hlt, List.singleton_append]
    · have hge : 1023 ≤ line.length := by omega
      have hneh : line.take 1023 ≠ endBytes :=
        hne _ (by rw [splitLine_long line hge]; exact List.mem_cons_self _ _)
      rw [input_loop_step_long line rest fuel hge hnl hf hneh]
      have hrec := ih (line.drop 1023) rest (fuel - 1)
        (by have := List.length_drop 1023 line; omega)
        (by simp only [List.length_append, List.length_cons, List.length_drop] at hf ⊢; omega)
        (fun b hb => hnl b (List.drop_subset 1023 line hb))
        (fun c hc => hne c (by rw [splitLine_long line hge]; exact List.mem_cons_of_mem _ hc))
      rw [hrec, splitLine_long line hge, List.cons_append]

/-- C10: the reader's `fgets` buffer is 1024 bytes, so a newline-terminated
input line is delivered as the chunks of `splitLine`: any line of 1023
bytes or more is not pushed as a single item but split at 1023-byte
boundaries into several separately pushed items (at least two), and the
`<END>` sentinel fires exactly when a whole chunk equals `<END>` — in
particular a chunk-sized line whose own chunk is `<END>` terminates the
reader, while lines whose chunks all differ from `<END>` are all pushed. -/
theorem C10_reader_1024_buffer_splits :
    (∀ (line : Bytes) (rest : List Nat),
       (∀ b ∈ line, b ≠ 10) → (∀ c ∈ splitLine line, c ≠ endBytes) →
       input_thread (line ++ 10 :: rest)
         = (splitLine line ++ (input_thread rest).1, (input_thread rest).2)) ∧
    (∀ line : Bytes, 1023 ≤ line.length → 2 ≤ (splitLine line).length) ∧
    (∀ rest : List Nat, input_thread (endBytes ++ 10 :: rest) = ([], true)) := by
  refine ⟨?_, ?_, ?_⟩
  · intro line rest hnl hne
    exact input_loop_split line.length line rest (line ++ 10 :: rest).length
      (le_refl _) (le_refl _) hnl hne
  · intro line hge
    rw [splitLine_long line hge]
    have h1 : 0 < (splitLine (line.drop 1023)).length :=
      List.length_pos.mpr (splitLine_ne_nil (line.drop 1023))
    simp only [List.length_cons]
    omega
  · intro rest
    rw [input_thread]
    cases hfe : (endBytes ++ 10 :: rest).length with
    | zero => simp at hfe
    | succ f =>
      simp only [input_loop, fgets1024,
        if_neg (show endBytes ++ 10 :: rest ≠ [] by simp)]
      rw [readUpTo_nl endBytes 1023 rest (by decide) (by decide), chomp_concat_nl,
        if_pos rfl]

set_option maxRecDepth 100000 in
/-- Witness for C10: the 1023-byte line `aaa…a` (followed by a newline and
end of file) is pushed as two items — the 1023 `a`s and an empty chunk —
and its chunk decomposition has two elements. -/
theorem C10_reader_1024_buffer_splits_witness :
    input_thread (List.replicate 1023 97 ++ 10 :: [])
      = (splitLine (List.replicate 1023 97) ++ (input_thread []).1, (input_thread []).2) ∧
    2 ≤ (splitLine (List.replicate 1023 97)).length ∧
    input_thread (endBytes ++ 10 :: []) = ([], true) :=
  ⟨C10_reader_1024_buffer_splits.1 (List.replicate 1023 97) []
      (fun b hb => by rw [List.eq_of_mem_replicate hb]; decide) (by decide),
   C10_reader_1024_buffer_splits.2.1 (List.replicate 1023 97) (by decide),
   C10_reader_1024_buffer_splits.2.2 []⟩

/-! ## Claim C2: shutdown propagation by the stage workers

One iteration of the worker loop.  `stop` is the value of
`ctx->stop_requested` as read in this iteration (the model is the
pre-join phase of the pipeline, where it is still false; the branch
structure mirrors the C code regardless).  A `wouldBlock` pop leaves the
worker parked: no iteration completes and nothing changes. -/

inductive iterResult where
  | looped
  | blocked
  | exited
  deriving Repr, DecidableEq

/-- One iteration of `process_thread` from `src/plugins/lower.c`
lines 31-53 — identical, up to the transform `f`, to the `process_thread`
of all six plugins generated by `build.sh` (lines 139-161): pop returning
`QUEUE_SHUTDOWN` (or a set stop flag) frees the string, calls
`queue_shutdown(ctx->output)` and breaks; a popped string is transformed
and pushed (push result ignored, string freed). -/
def process_thread_iter (f : Bytes → Bytes) (stop : Bool) (qin qout : queue_t) :
    iterResult × queue_t × queue_t :=
  if stop then (.exited, qin, qout)
  else
    match (queue_pop qin).1 with
    | .wouldBlock => (.blocked, qin, qout)
    | .shutdown => (.exited, (queue_pop qin).2, queue_shutdown qout)
    | .ok v => (.looped, (queue_pop qin).2, (queue_push qout (f v)).2)

/-- One iteration of `process_thread` from `src/plugins/test_upper.c`
lines 20-39: on `QUEUE_SHUTDOWN` it frees the string and breaks WITHOUT
calling `queue_shutdown` on its output queue. -/
def test_upper_process_iter (stop : Bool) (qin qout : queue_t) :
    iterResult × queue_t × queue_t :=
  if stop then (.exited, qin, qout)
  else
    match (queue_pop qin).1 with
    | .wouldBlock => (.blocked, qin, qout)
    | .shutdown => (.exited, (queue_pop qin).2, qout)
    | .ok v => (.looped, (queue_pop qin).2, (queue_push qout (transform_upper v)).2)

/-- C2 counterexample: the `test_upper.c` stage worker, upon its input pop
returning `QUEUE_SHUTDOWN` (here: a fresh capacity-1 queue that has been
shut down), exits its thread while its output buffer is still open
(`shutdown = false`) — it never calls `queue_shutdown` on the output. -/
theorem C2_counterexample_test_upper_no_propagation :
    (queue_pop (queue_shutdown (queue_mk 1))).1 = popResult.shutdown ∧
    test_upper_process_iter false (queue_shutdown (queue_mk 1)) (queue_mk 1)
      = (.exited, queue_shutdown (queue_mk 1), queue_mk 1) ∧
    (queue_mk 1).shutdown = false := by
  decide

/-- C2, amended to the workers that implement the rule: for `lower.c` and
each of the six generated plugins, whenever the input pop returns
`QUEUE_SHUTDOWN` (and no stop was requested), the iteration exits the
loop and the output buffer has been shut down before the thread exits. -/
theorem C2_shutdown_propagation (f : Bytes → Bytes) (stop : Bool) (qin qout : queue_t)
    (hstop : stop = false) (hpop : (queue_pop qin).1 = popResult.shutdown) :
    process_thread_iter f stop qin qout
      = (.exited, (queue_pop qin).2, queue_shutdown qout) ∧
    (queue_shutdown qout).shutdown = true := by
  subst hstop
  simp [process_thread_iter, hpop, queue_shutdown]

/-- Witness for C2 at a concrete input: the `lower` worker on a shut-down
empty input closes its capacity-1 output before exiting. -/
theorem C2_shutdown_propagation_witness :
    process_thread_iter transform_lower false (queue_shutdown (queue_mk 1)) (queue_mk 1)
      = (.exited, (queue_pop (queue_shutdown (queue_mk 1))).2, queue_shutdown (queue_mk 1)) ∧
    (queue_shutdown (queue_mk 1)).shutdown = true :=
  C2_shutdown_propagation transform_lower false (queue_shutdown (queue_mk 1)) (queue_mk 1)
    rfl (by decide)

/-! ## Claim C7: ownership of a pushed item

Ownership lives at the pointer level, so this claim gets a heap-indexed
model: a heap maps addresses to byte-string cells (`none` = freed or
unallocated), and the ring slots hold addresses (`char**`). -/

abbrev heap_t := List (Option Bytes)

/-- `malloc`+copy: a fresh cell at the next address. -/
def heapAlloc (h : heap_t) (s : Bytes) : heap_t × Nat := (h ++ [some s], h.length)

/-- `free(a)`. -/
def heapFree (h : heap_t) (a : Nat) : heap_t := h.set a none

/-- Dereference. -/
def heapGet (h : heap_t) (a : Nat) : Option Bytes := h.getD a none

/-- The queue with pointer-valued slots (the C `char** buffer`). -/
structure hqueue_t where
  buffer : List (Option Nat)
  capacity : Nat
  size : Nat
  head : Nat
  tail : Nat
  shutdown : Bool
  deriving Repr, DecidableEq

def hqueue_mk (c : Nat) : hqueue_t :=
  { buffer := List.replicate c none, capacity := c,
    size := 0, head := 0, tail := 0, shutdown := false }

inductive hpopResult where
  | ok (a : Nat)
  | wouldBlock
  | shutdown
  deriving Repr, DecidableEq

/-- `queue_push` at the pointer level (queue.c lines 86-129).  Line 112,
`char* str_copy = strdup(str);`, allocates a FRESH cell holding a copy of
the caller's bytes; the ring stores the fresh address (line 120) and the
caller's own cell is never touched or freed by the queue. -/
def hqueue_push (h : heap_t) (q : hqueue_t) (str : Nat) : pushResult × heap_t × hqueue_t :=
  if q.shutdown then (.shutdown, h, q)
  else if q.capacity ≤ q.size then (.wouldBlock, h, q)
  else
    let content := (heapGet h str).getD []
    let alloc := heapAlloc h content
    (.ok, alloc.1, { q with buffer := q.buffer.set q.tail (some alloc.2),
                            tail := (q.tail + 1) % q.capacity,
                            size := q.size + 1 })

/-- `queue_pop` at the pointer level (queue.c lines 134-165): hands the
stored address out to the caller. -/
def hqueue_pop (q : hqueue_t) : hpopResult × hqueue_t :=
  if q.size = 0 ∧ q.shutdown = false then (.wouldBlock, q)
  else if q.shutdown = true ∧ q.size = 0 then (.shutdown, q)
  else (.ok ((q.buffer.getD q.head none).getD 0),
        { q with buffer := q.buffer.set q.head none,
                 head := (q.head + 1) % q.capacity,
                 size := q.size - 1 })

/-- C7 counterexample: the caller owns address 0 holding the byte `x` and
pushes it into a fresh capacity-1 queue.  The push succeeds, but the item
a later pop delivers is address 1 — a copy, NOT the very item the caller
pushed — and the caller's cell at address 0 is still allocated after the
push: the buffer did not take ownership (the caller must still free it,
and `lower.c` line 47 indeed frees the string right after pushing it). -/
theorem C7_counterexample_push_copies :
    (hqueue_push [some [120]] (hqueue_mk 1) 0).1 = pushResult.ok ∧
    (hqueue_pop ((hqueue_push [some [120]] (hqueue_mk 1) 0).2.2)).1 = hpopResult.ok 1 ∧
    (1 : Nat) ≠ 0 ∧
    heapGet (hqueue_push [some [120]] (hqueue_mk 1) 0).2.1 0 = some [120] := by
  decide

/-- C7, amended: on a successful push the buffer stores a FRESH copy of
the caller's bytes (the `strdup` of queue.c line 112): the next pop on a
previously empty queue delivers the fresh address (distinct from the
caller's), whose cell holds bytes equal to the caller's; the caller's own
cell is unchanged by the push — the caller keeps ownership of its item
and must release it itself. -/
theorem C7_push_copies_caller_keeps_ownership (h : heap_t) (a : Nat) (c : Nat)
    (hc : 0 < c) (ha : a < h.length) :
    (hqueue_push h (hqueue_mk c) a).1 = pushResult.ok ∧
    (hqueue_pop (hqueue_push h (hqueue_mk c) a).2.2).1 = hpopResult.ok h.length ∧
    h.length ≠ a ∧
    heapGet (hqueue_push h (hqueue_mk c) a).2.1 h.length = some ((heapGet h a).getD []) ∧
    heapGet (hqueue_push h (hqueue_mk c) a).2.1 a = heapGet h a := by
  have hnb : ¬ c ≤ 0 := by omega
  have hres : hqueue_push h (hqueue_mk c) a =
      (.ok, h ++ [some ((heapGet h a).getD [])],
       { buffer := (List.replicate c (none : Option Nat)).set 0 (some h.length),
         capacity := c, size := 1, head := 0, tail := 1 % c, shutdown := false }) := by
    simp [hqueue_push, hqueue_mk, heapAlloc, hnb]
  rw [hres]
  refine ⟨rfl, ?_, Nat.ne_of_gt ha, ?_, ?_⟩
  · have h0c : 0 < (List.replicate c (none : Option Nat)).length := by
      rw [List.length_replicate]; exact hc
    simp only [hqueue_pop]
    rw [if_neg (by simp), if_neg (by simp)]
    rw [getD_set_self h0c]
    rfl
  · rw [heapGet, List.getD, List.get?_eq_getElem?, List.getElem?_concat_length]
    rfl
  · rw [heapGet, heapGet, List.getD, List.getD, List.get?_eq_getElem?,
      List.get?_eq_getElem?, List.getElem?_append, if_pos ha]

/-- Witness for C7's amended statement at a concrete input: heap with the
caller's cell 0 holding byte `x`, capacity 1. -/
theorem C7_push_copies_caller_keeps_ownership_witness :
    (hqueue_push [some [120]] (hqueue_mk 1) 0).1 = pushResult.ok ∧
    (hqueue_pop (hqueue_push [some [120]] (hqueue_mk 1) 0).2.2).1
      = hpopResult.ok (List.length [some ([120] : Bytes)]) ∧
    List.length [some ([120] : Bytes)] ≠ 0 ∧
    heapGet (hqueue_push [some [120]] (hqueue_mk 1) 0).2.1 (List.length [some ([120] : Bytes)])
      = some ((heapGet [some [120]] 0).getD []) ∧
    heapGet (hqueue_push [some [120]] (hqueue_mk 1) 0).2.1 0 = heapGet [some [120]] 0 :=
  C7_push_copies_caller_keeps_ownership [some [120]] 0 1 (by decide) (by decide)

/-! ## Claim C8: end-to-end pipeline behaviour

The whole process is a set of threads — the stdin reader, one worker per
plugin, the stdout writer — sharing the `N+1` queues.  Every blocking
operation runs under the queue's mutex, so an execution is an interleaving
of atomic queue operations; a schedule is the list of thread ids in the
order in which they complete (or retry) their next atomic operation.  A
blocked thread (wouldBlock) changes nothing, which models it staying
parked.  Local computation between two queue operations (transforming a
string) is folded into the step that follows it.

Lines are modelled pre-split (each shorter than the 1023-byte `fgets`
limit, see C10), so the reader consumes one line per step. -/

inductive wphase where
  | ready
  | pushing (t : Bytes)
  | closing
  | done
  deriving Repr, DecidableEq

/-- The thread-local state of one plugin worker: its `stop_requested` flag
and its position in the `process_thread` loop. -/
structure wst where
  stop : Bool
  phase : wphase
  deriving Repr, DecidableEq

/-- Global state: remaining stdin lines, the reader-exited flag, the
`N+1` queues, the `N` workers, the lines written to stdout, and the
writer-exited flag. -/
structure sys where
  stdinLines : List Bytes
  readerDone : Bool
  queues : List queue_t
  workers : List wst
  outLines : List Bytes
  writerDone : Bool
  deriving Repr, DecidableEq

/-- Queue `i` of the pipeline. -/
def qAt (s : sys) (i : Nat) : queue_t := s.queues.getD i default

/-- Worker `i` of the pipeline. -/
def wAt (s : sys) (i : Nat) : wst := s.workers.getD i ⟨false, wphase.done⟩

/-- One step of `input_thread` (generated main.c lines 257-276): at EOF
the loop just ends (no shutdown — see C3); on `<END>` shut down queue 0
and end; otherwise push the line to queue 0 (result ignored), blocking
while queue 0 is full. -/
def readerStep (s : sys) : sys :=
  if s.readerDone then s
  else
    match s.stdinLines with
    | [] => { s with readerDone := true }
    | line :: rest =>
      if line = endBytes then
        { s with stdinLines := rest, readerDone := true,
                 queues := s.queues.set 0 (queue_shutdown (qAt s 0)) }
      else
        match (queue_push (qAt s 0) line).1 with
        | .wouldBlock => s
        | _ => { s with stdinLines := rest,
                        queues := s.queues.set 0 (queue_push (qAt s 0) line).2 }

/-- One step of worker `i` (`process_thread` generated by build.sh,
lines 139-161).  `ready`: at the loop head — exit if stop was requested
(no close on this path!), otherwise pop queue `i`: end-of-stream moves to
`closing`, a string is transformed and held for pushing (also dropped to
`closing` if stop was requested meanwhile).  `pushing t`: push `t` to
queue `i+1`, ignoring a shutdown result (the string is dropped).
`closing`: `queue_shutdown(ctx->output)`, then the thread exits. -/
def workerStep (fs : List (Bytes → Bytes)) (i : Nat) (s : sys) : sys :=
  match s.workers.get? i with
  | none => s
  | some w =>
    match w.phase with
    | wphase.done => s
    | wphase.ready =>
      if w.stop then
        { s with workers := s.workers.set i { w with phase := wphase.done } }
      else
        match (queue_pop (qAt s i)).1 with
        | .wouldBlock => s
        | .shutdown =>
          { s with queues := s.queues.set i (queue_pop (qAt s i)).2,
                   workers := s.workers.set i { w with phase := wphase.closing } }
        | .ok v =>
          if w.stop then
            { s with queues := s.queues.set i (queue_pop (qAt s i)).2,
                     workers := s.workers.set i { w with phase := wphase.closing } }
          else
            { s with queues := s.queues.set i (queue_pop (qAt s i)).2,
                     workers := s.workers.set i
                       { w with phase := wphase.pushing ((fs.getD i id) v) } }
    | wphase.pushing t =>
      match (queue_push (qAt s (i+1)) t).1 with
      | .wouldBlock => s
      | _ =>
        { s with queues := s.queues.set (i+1) (queue_push (qAt s (i+1)) t).2,
                 workers := s.workers.set i { w with phase := wphase.ready } }
    | wphase.closing =>
      { s with queues := s.queues.set (i+1) (queue_shutdown (qAt s (i+1))),
               workers := s.workers.set i { w with phase := wphase.done } }

/-- One step of `output_thread` (generated main.c lines 278-289): pop
queue `N`; print the string on ok, exit on `QUEUE_SHUTDOWN`. -/
def writerStep (n : Nat) (s : sys) : sys :=
  if s.writerDone then s
  else
    match (queue_pop (qAt s n)).1 with
    | .wouldBlock => s
    | .shutdown => { s with writerDone := true }
    | .ok v =>
      { s with queues := s.queues.set n (queue_pop (qAt s n)).2,
               outLines := s.outLines ++ [v] }

/-- A pipeline participant. -/
inductive tid where
  | reader
  | worker (i : Nat)
  | writer
  deriving Repr, DecidableEq

def sysStep (fs : List (Bytes → Bytes)) (t : tid) (s : sys) : sys :=
  match t with
  | .reader => readerStep s
  | .worker i => workerStep fs i s
  | .writer => writerStep fs.length s

def sysRun (fs : List (Bytes → Bytes)) (sched : List tid) (s : sys) : sys :=
  sched.foldl (fun s t => sysStep fs t s) s

/-- The assembled pipeline at start (generated main.c lines 291-341):
`n+1` queues of capacity `c` (`QUEUE_CAPACITY` = 100 in the source), `n`
running workers, reader and writer about to start; stdin holds the input
lines followed by the `<END>` sentinel line. -/
def sysInit (L : List Bytes) (n c : Nat) : sys :=
  { stdinLines := L ++ [endBytes], readerDone := false,
    queues := List.replicate (n+1) (queue_mk c),
    workers := List.replicate n ⟨false, wphase.ready⟩,
    outLines := [], writerDone := false }

/-- `main_backup.c` lines 112-115: right after joining the input thread,
main shuts down EVERY queue of the pipeline. -/
def mb_shutdown_all (s : sys) : sys := { s with queues := s.queues.map queue_shutdown }

/-- C8 counterexample, against the `main_backup.c` assembly: input is the
single line `a` (then `<END>`), one `upper` stage, capacity 100.  A legal
schedule: the reader pushes `a` and sees `<END>` (shutting queue 0), the
main thread joins it and shuts down all queues (lines 112-115) before the
worker has run; the worker then drains `a`, but its push is rejected by
the already-shut queue 1 and the string is dropped; worker and writer
shut down cleanly.  The process exits having written NOTHING, although
the claim requires exactly one output line `A` per input line. -/
theorem C8_counterexample_main_backup_drops_lines :
    (sysRun [transform_upper]
        [tid.worker 0, tid.worker 0, tid.worker 0, tid.writer]
        (mb_shutdown_all (sysRun [transform_upper] [tid.reader, tid.reader]
           (sysInit [[97]] 1 100)))).writerDone = true ∧
    (sysRun [transform_upper]
        [tid.worker 0, tid.worker 0, tid.worker 0, tid.writer]
        (mb_shutdown_all (sysRun [transform_upper] [tid.reader, tid.reader]
           (sysInit [[97]] 1 100)))).outLines = [] ∧
    List.map transform_upper [[97]] = [[65]] := by
  decide

/-- Left-to-right composition of the stage transforms. -/
def chainApply (fs : List (Bytes → Bytes)) (x : Bytes) : Bytes :=
  fs.foldl (fun a f => f a) x

/-- The composition of the first `i` stage transforms — what a line looks
like when it sits in queue `i`. -/
def Fc (fs : List (Bytes → Bytes)) (i : Nat) (x : Bytes) : Bytes :=
  chainApply (fs.take i) x

theorem Fc_zero (fs : List (Bytes → Bytes)) (x : Bytes) : Fc fs 0 x = x := rfl

theorem Fc_length (fs : List (Bytes → Bytes)) (x : Bytes) :
    Fc fs fs.length x = chainApply fs x := by
  rw [Fc, List.take_length]

theorem Fc_succ (fs : List (Bytes → Bytes)) (i : Nat) (h : i < fs.length) (x : Bytes) :
    Fc fs (i + 1) x = (fs.getD i id) (Fc fs i x) := by
  rw [Fc, Fc, List.take_succ, List.getElem?_eq_getElem h, chainApply, chainApply,
    List.foldl_append, List.getD_eq_getElem fs id h]
  rfl

/-- The slice of the input between positions `c` (consumed) and `p`
(produced). -/
def seg (L : List Bytes) (c p : Nat) : List Bytes := (L.drop c).take (p - c)

theorem seg_empty (L : List Bytes) (c : Nat) : seg L c c = [] := by
  simp [seg]

theorem seg_push (L : List Bytes) (c p : Nat) (hcp : c ≤ p) (hp : p < L.length) :
    seg L c (p + 1) = seg L c p ++ [L.getD p []] := by
  rw [seg, seg, show p + 1 - c = (p - c) + 1 by omega, List.take_succ,
    List.getElem?_drop, show c + (p - c) = p by omega,
    List.getElem?_eq_getElem hp, List.getD_eq_getElem L [] hp]
  rfl

theorem seg_pop (L : List Bytes) (c p : Nat) (hcp : c < p) (hp : p ≤ L.length) :
    seg L c p = L.getD c [] :: seg L (c + 1) p := by
  have hc : c < L.length := by omega
  rw [seg, seg, List.drop_eq_getElem_cons hc, show p - c = (p - (c+1)) + 1 by omega,
    List.take_succ_cons, List.getD_eq_getElem L [] hc]

theorem seg_nil_right (L : List Bytes) (c p : Nat) (hcp : c ≤ p) (hpK : p ≤ L.length)
    (h : seg L c p = []) (hpc : p = L.length) : c = L.length := by
  rw [seg, List.take_eq_nil_iff] at h
  rcases h with h | h
  · omega
  · rw [List.drop_eq_nil_iff] at h
    omega

/-- The ghost counters of the pipeline invariant: `p i` = number of input
lines whose stage-`i` image has been pushed into queue `i`; `c i` =
number popped from queue `i`. -/
structure sysCfg where
  p : Nat → Nat
  c : Nat → Nat

/-- The per-worker part of the pipeline invariant (`K` = `L.length`):
* `ready` (at the loop head): everything popped has been pushed on;
* `pushing t`: one line is in hand, its transform ready to push;
* `closing` (about to `queue_shutdown` the output): the input queue was
  closed and fully drained;
* `done` (thread exited): everything was forwarded and the input was
  closed. -/
def workerClause (L : List Bytes) (fs : List (Bytes → Bytes)) (s : sys) (g : sysCfg)
    (i : Nat) : Prop :=
  match (wAt s i).phase with
  | wphase.ready => g.p (i+1) = g.c i
  | wphase.pushing t => g.c i = g.p (i+1) + 1 ∧ g.p (i+1) < L.length ∧
      t = Fc fs (i+1) (L.getD (g.p (i+1)) [])
  | wphase.closing => g.p (i+1) = g.c i ∧ g.c i = L.length ∧ (qAt s i).shutdown = true
  | wphase.done => g.p (i+1) = L.length ∧ g.c i = L.length ∧ (qAt s i).shutdown = true

/-- The global pipeline invariant, relative to ghost counters `g`. -/
structure sysInvAt (L : List Bytes) (fs : List (Bytes → Bytes)) (C : Nat) (s : sys)
    (g : sysCfg) : Prop where
  qlen : s.queues.length = fs.length + 1
  wlen : s.workers.length = fs.length
  qinv : ∀ i, i ≤ fs.length → queueInv (qAt s i)
  qcap : ∀ i, i ≤ fs.length → (qAt s i).capacity = C
  nostop : ∀ i, i < fs.length → (wAt s i).stop = false
  cle : ∀ i, i ≤ fs.length → g.c i ≤ g.p i
  ple : ∀ i, i ≤ fs.length → g.p i ≤ L.length
  qabs : ∀ i, i ≤ fs.length →
    absItems (qAt s i) = (seg L (g.c i) (g.p i)).map (Fc fs i)
  rdr : if s.readerDone
    then g.p 0 = L.length ∧ s.stdinLines = [] ∧ (qAt s 0).shutdown = true
    else s.stdinLines = (L ++ [endBytes]).drop (g.p 0) ∧ (qAt s 0).shutdown = false
  wkr : ∀ i, i < fs.length → workerClause L fs s g i
  closediff : ∀ i, i < fs.length →
    ((qAt s (i+1)).shutdown = true ↔ (wAt s i).phase = wphase.done)
  wout : s.outLines = (L.take (g.c fs.length)).map (Fc fs fs.length)
  wdone : s.writerDone = true →
    g.c fs.length = L.length ∧ (qAt s fs.length).shutdown = true

/-- The pipeline invariant. -/
def sysInv (L : List Bytes) (fs : List (Bytes → Bytes)) (C : Nat) (s : sys) : Prop :=
  ∃ g, sysInvAt L fs C s g

theorem qAt_init (L : List Bytes) (n c : Nat) (i : Nat) (h : i ≤ n) :
    qAt (sysInit L n c) i = queue_mk c := by
  rw [qAt, sysInit]
  dsimp only
  rw [List.getD, List.get?_eq_getElem?, List.getElem?_replicate]
  rw [if_pos (by omega)]
  rfl

theorem wAt_init (L : List Bytes) (n c : Nat) (i : Nat) (h : i < n) :
    wAt (sysInit L n c) i = ⟨false, wphase.ready⟩ := by
  rw [wAt, sysInit]
  dsimp only
  rw [List.getD, List.get?_eq_getElem?, List.getElem?_replicate, if_pos h]
  rfl

/-- The initial pipeline state satisfies the invariant (zero counters). -/
theorem sysInv_init (L : List Bytes) (fs : List (Bytes → Bytes)) (C : Nat) (hC : 0 < C) :
    sysInv L fs C (sysInit L fs.length C) := by
  refine ⟨⟨fun _ => 0, fun _ => 0⟩, ?_⟩
  refine ⟨?_, ?_, ?_, ?_, ?_, ?_, ?_, ?_, ?_, ?_, ?_, ?_, ?_⟩
  · simp [sysInit]
  · simp [sysInit]
  · intro i h
    rw [qAt_init L fs.length C i h]
    exact queueInv_mk C hC
  · intro i h
    rw [qAt_init L fs.length C i h]
    rfl
  · intro i h
    rw [wAt_init L fs.length C i h]
  · intro i _
    exact le_refl 0
  · intro i _
    exact Nat.zero_le _
  · intro i h
    rw [qAt_init L fs.length C i h, absItems_mk, seg_empty]
    rfl
  · rw [show (sysInit L fs.length C).readerDone = false from rfl]
    simp only [if_false, Bool.false_eq_true]
    constructor
    · rfl
    · rw [qAt_init L fs.length C 0 (Nat.zero_le _)]
      rfl
  · intro i h
    rw [workerClause, wAt_init L fs.length C i h]
  · intro i h
    rw [qAt_init L fs.length C (i+1) (by omega), wAt_init L fs.length C i h]
    simp [queue_mk]
  · rfl
  · intro h
    simp [sysInit] at h

theorem mem_of_getD {L : List Bytes} {i : Nat} (h : i < L.length) : L.getD i [] ∈ L := by
  rw [List.getD_eq_getElem L [] h]
  exact List.getElem_mem h

theorem getD_set_split (l : List α) (k j : Nat) (a d : α) (hk : k < l.length) :
    (l.set k a).getD j d = if j = k then a else l.getD j d := by
  by_cases hj : j = k
  · subst hj
    rw [if_pos rfl]
    exact getD_set_self hk
  · rw [if_neg hj]
    exact getD_set_ne (fun h => hj h.symm)

/-- The reader's step preserves the pipeline invariant (for well-formed
input: no payload line equals the sentinel). -/
theorem sysInv_readerStep (L : List Bytes) (fs : List (Bytes → Bytes)) (C : Nat)
    (hE : endBytes ∉ L) (s : sys) (h : sysInv L fs C s) :
    sysInv L fs C (readerStep s) := by
  obtain ⟨g, inv⟩ := h
  by_cases hd : s.readerDone = true
  · refine ⟨g, ?_⟩
    simp only [readerStep, hd, if_true]
    exact inv
  · have hdf : s.readerDone = false := Bool.not_eq_true _ |>.mp hd
    have hrdr := inv.rdr
    rw [hdf] at hrdr
    simp only [Bool.false_eq_true, if_false] at hrdr
    obtain ⟨hstdin, hq0open⟩ := hrdr
    have hp0 := inv.ple 0 (Nat.zero_le _)
    have hq0len : 0 < s.queues.length := by
      rw [inv.qlen]
      omega
    by_cases hlt : g.p 0 < L.length
    · -- next line is a payload line
      have hplt : g.p 0 < (L ++ [endBytes]).length := by
        rw [List.length_append, List.length_cons]
        omega
      have hhead : (L ++ [endBytes])[g.p 0] = L.getD (g.p 0) [] := by
        rw [List.getElem_append_left hlt, List.getD_eq_getElem L [] hlt]
      have hdrop : s.stdinLines
          = L.getD (g.p 0) [] :: (L ++ [endBytes]).drop (g.p 0 + 1) := by
        rw [hstdin, List.drop_eq_getElem_cons hplt, hhead]
      have hne : L.getD (g.p 0) [] ≠ endBytes := by
        intro heq
        exact hE (heq ▸ mem_of_getD hlt)
      have hq0inv := inv.qinv 0 (Nat.zero_le _)
      by_cases hfull : (qAt s 0).capacity ≤ (qAt s 0).size
      · have hstep : readerStep s = s := by
          simp only [readerStep, hdf, Bool.false_eq_true, if_false, hdrop, if_neg hne,
            queue_push_block_spec _ _ hq0open hfull]
        rw [hstep]
        exact ⟨g, inv⟩
      · have hsz : (qAt s 0).size < (qAt s 0).capacity := Nat.not_le.mp hfull
        obtain ⟨hr1, hr2, hr3, hr4, hr5, -⟩ :=
          queue_push_ok_spec (qAt s 0) (L.getD (g.p 0) []) hq0inv hq0open hsz
        have hstep : readerStep s
            = { s with stdinLines := (L ++ [endBytes]).drop (g.p 0 + 1),
                       queues := s.queues.set 0
                         (queue_push (qAt s 0) (L.getD (g.p 0) [])).2 } := by
          simp only [readerStep, hdf, Bool.false_eq_true, if_false, hdrop, if_neg hne, hr1]
        have hQ : ∀ j, qAt (readerStep s) j
            = if j = 0 then (queue_push (qAt s 0) (L.getD (g.p 0) [])).2 else qAt s j := by
          intro j
          rw [hstep]
          exact getD_set_split s.queues 0 j _ default hq0len
        have hW : ∀ j, wAt (readerStep s) j = wAt s j := by
          intro j
          rw [hstep]
          rfl
        have hSd : (readerStep s).stdinLines = (L ++ [endBytes]).drop (g.p 0 + 1) := by
          rw [hstep]
        have hRd : (readerStep s).readerDone = s.readerDone := by
          rw [hstep]
        have hOut : (readerStep s).outLines = s.outLines := by
          rw [hstep]
        have hWd : (readerStep s).writerDone = s.writerDone := by
          rw [hstep]
        have hQl : (readerStep s).queues.length = s.queues.length := by
          rw [hstep]
          exact List.length_set s.queues 0 _
        have hWl : (readerStep s).workers.length = s.workers.length := by
          rw [hstep]
        refine ⟨⟨fun j => if j = 0 then g.p 0 + 1 else g.p j, g.c⟩, ?_⟩
        refine ⟨?_, ?_, ?_, ?_, ?_, ?_, ?_, ?_, ?_, ?_, ?_, ?_, ?_⟩
        · rw [hQl]
          exact inv.qlen
        · rw [hWl]
          exact inv.wlen
        · intro i hi
          rw [hQ i]
          by_cases hj : i = 0
          · rw [if_pos hj]
            exact hr3
          · rw [if_neg hj]
            exact inv.qinv i hi
        · intro i hi
          rw [hQ i]
          by_cases hj : i = 0
          · rw [if_pos hj]
            exact hr5.trans (inv.qcap 0 (Nat.zero_le _))
          · rw [if_neg hj]
            exact inv.qcap i hi
        · intro i hi
          rw [hW i]
          exact inv.nostop i hi
        · intro i hi
          show g.c i ≤ if i = 0 then g.p 0 + 1 else g.p i
          by_cases hj : i = 0
          · subst hj
            rw [if_pos rfl]
            exact le_trans (inv.cle 0 (Nat.zero_le _)) (Nat.le_succ _)
          · rw [if_neg hj]
            exact inv.cle i hi
        · intro i hi
          show (if i = 0 then g.p 0 + 1 else g.p i) ≤ L.length
          by_cases hj : i = 0
          · subst hj
            rw [if_pos rfl]
            omega
          · rw [if_neg hj]
            exact inv.ple i hi
        · intro i hi
          rw [hQ i]
          by_cases hj : i = 0
          · subst hj
            rw [if_pos rfl]
            show absItems _ = (seg L (g.c 0) (if (0 : Nat) = 0 then g.p 0 + 1 else g.p 0)).map _
            rw [if_pos rfl, hr2, inv.qabs 0 (Nat.zero_le _),
              seg_push L (g.c 0) (g.p 0) (inv.cle 0 (Nat.zero_le _)) hlt,
              List.map_append]
            rfl
          · rw [if_neg hj]
            show absItems (qAt s i) = (seg L (g.c i) (if i = 0 then g.p 0 + 1 else g.p i)).map _
            rw [if_neg hj]
            exact inv.qabs i hi
        · rw [hRd, hdf]
          simp only [Bool.false_eq_true, if_false]
          refine ⟨?_, ?_⟩
          · rw [hSd]
            show _ = (L ++ [endBytes]).drop (if (0 : Nat) = 0 then g.p 0 + 1 else g.p 0)
            rw [if_pos rfl]
          · rw [hQ 0, if_pos rfl, hr4]
            exact hq0open
        · intro i hi
          have hwc := inv.wkr i hi
          rw [workerClause] at hwc ⊢
          rw [hW i]
          cases hph : (wAt s i).phase with
          | ready =>
            rw [hph] at hwc
            show (if i + 1 = 0 then g.p 0 + 1 else g.p (i + 1)) = g.c i
            rw [if_neg (Nat.succ_ne_zero i)]
            exact hwc
          | pushing t =>
            rw [hph] at hwc
            show g.c i = (if i + 1 = 0 then g.p 0 + 1 else g.p (i + 1)) + 1 ∧
              (if i + 1 = 0 then g.p 0 + 1 else g.p (i + 1)) < L.length ∧
              t = Fc fs (i + 1) (L.getD (if i + 1 = 0 then g.p 0 + 1 else g.p (i + 1)) [])
            rw [if_neg (Nat.succ_ne_zero i)]
            exact hwc
          | closing =>
            rw [hph] at hwc
            by_cases hj : i = 0
            · exfalso
              rw [hj] at hwc
              rw [hwc.2.2] at hq0open
              cases hq0open
            · show (if i + 1 = 0 then g.p 0 + 1 else g.p (i + 1)) = g.c i ∧
                g.c i = L.length ∧ (qAt (readerStep s) i).shutdown = true
              rw [if_neg (Nat.succ_ne_zero i), hQ i, if_neg hj]
              exact hwc
          | done =>
            rw [hph] at hwc
            by_cases hj : i = 0
            · exfalso
              rw [hj] at hwc
              rw [hwc.2.2] at hq0open
              cases hq0open
            · show (if i + 1 = 0 then g.p 0 + 1 else g.p (i + 1)) = L.length ∧
                g.c i = L.length ∧ (qAt (readerStep s) i).shutdown = true
              rw [if_neg (Nat.succ_ne_zero i), hQ i, if_neg hj]
              exact hwc
        · intro i hi
          rw [hQ (i + 1), if_neg (Nat.succ_ne_zero i), hW i]
          exact inv.closediff i hi
        · rw [hOut]
          exact inv.wout
        · rw [hWd]
          intro hw
          obtain ⟨hc, hsd⟩ := inv.wdone hw
          refine ⟨hc, ?_⟩
          rw [hQ fs.length]
          by_cases hN : fs.length = 0
          · exfalso
            rw [hN] at hsd
            rw [hsd] at hq0open
            cases hq0open
          · rw [if_neg hN]
            exact hsd
    · -- the next stdin line is the sentinel
      have hp0K : g.p 0 = L.length := by omega
      have hdropK : s.stdinLines = [endBytes] := by
        rw [hstdin, hp0K, List.drop_left]
      have hstep : readerStep s
          = { s with stdinLines := ([] : List Bytes), readerDone := true,
                     queues := s.queues.set 0 (queue_shutdown (qAt s 0)) } := by
        simp only [readerStep, hdf, Bool.false_eq_true, if_false, hdropK, if_true]
      have hQ : ∀ j, qAt (readerStep s) j
          = if j = 0 then queue_shutdown (qAt s 0) else qAt s j := by
        intro j
        rw [hstep]
        exact getD_set_split s.queues 0 j _ default hq0len
      have hW : ∀ j, wAt (readerStep s) j = wAt s j := by
        intro j
        rw [hstep]
        rfl
      have hSd : (readerStep s).stdinLines = ([] : List Bytes) := by
        rw [hstep]
      have hRd : (readerStep s).readerDone = true := by
        rw [hstep]
      have hOut : (readerStep s).outLines = s.outLines := by
        rw [hstep]
      have hWd : (readerStep s).writerDone = s.writerDone := by
        rw [hstep]
      have hQl : (readerStep s).queues.length = s.queues.length := by
        rw [hstep]
        exact List.length_set s.queues 0 _
      have hWl : (readerStep s).workers.length = s.workers.length := by
        rw [hstep]
      refine ⟨g, ?_⟩
      refine ⟨?_, ?_, ?_, ?_, ?_, ?_, ?_, ?_, ?_, ?_, ?_, ?_, ?_⟩
      · rw [hQl]
        exact inv.qlen
      · rw [hWl]
        exact inv.wlen
      · intro i hi
        rw [hQ i]
        by_cases hj : i = 0
        · rw [if_pos hj]
          exact queueInv_shutdown _ (inv.qinv 0 (Nat.zero_le _))
        · rw [if_neg hj]
          exact inv.qinv i hi
      · intro i hi
        rw [hQ i]
        by_cases hj : i = 0
        · rw [if_pos hj]
          exact inv.qcap 0 (Nat.zero_le _)
        · rw [if_neg hj]
          exact inv.qcap i hi
      · intro i hi
        rw [hW i]
        exact inv.nostop i hi
      · exact inv.cle
      · exact inv.ple
      · intro i hi
        rw [hQ i]
        by_cases hj : i = 0
        · rw [if_pos hj, absItems_shutdown, hj]
          exact inv.qabs 0 (Nat.zero_le _)
        · rw [if_neg hj]
          exact inv.qabs i hi
      · rw [hRd]
        simp only [if_true]
        refine ⟨hp0K, hSd, ?_⟩
        rw [hQ 0, if_pos rfl]
        rfl
      · intro i hi
        have hwc := inv.wkr i hi
        rw [workerClause] at hwc ⊢
        rw [hW i]
        cases hph : (wAt s i).phase with
        | ready =>
          rw [hph] at hwc
          exact hwc
        | pushing t =>
          rw [hph] at hwc
          exact hwc
        | closing =>
          rw [hph] at hwc
          by_cases hj : i = 0
          · exfalso
            rw [hj] at hwc
            rw [hwc.2.2] at hq0open
            cases hq0open
          · show g.p (i + 1) = g.c i ∧ g.c i = L.length ∧ (qAt (readerStep s) i).shutdown = true
            rw [hQ i, if_neg hj]
            exact hwc
        | done =>
          rw [hph] at hwc
          by_cases hj : i = 0
          · exfalso
            rw [hj] at hwc
            rw [hwc.2.2] at hq0open
            cases hq0open
          · show g.p (i + 1) = L.length ∧ g.c i = L.length ∧ (qAt (readerStep s) i).shutdown = true
            rw [hQ i, if_neg hj]
            exact hwc
      · intro i hi
        rw [hQ (i + 1), if_neg (Nat.succ_ne_zero i), hW i]
        exact inv.closediff i hi
      · rw [hOut]
        exact inv.wout
      · rw [hWd]
        intro hw
        obtain ⟨hc, hsd⟩ := inv.wdone hw
        refine ⟨hc, ?_⟩
        rw [hQ fs.length]
        by_cases hN : fs.length = 0
        · rw [if_pos hN]
          rfl
        · rw [if_neg hN]
          exact hsd

/-- If queue `k` is shut down, its producer has finished, so all
`L.length` lines have been pushed into it. -/
theorem prod_full_of_shutdown (L : List Bytes) (fs : List (Bytes → Bytes)) (C : Nat)
    (s : sys) (g : sysCfg) (inv : sysInvAt L fs C s g) (k : Nat) (hk : k ≤ fs.length)
    (hsd : (qAt s k).shutdown = true) : g.p k = L.length := by
  cases k with
  | zero =>
    have hrdr := inv.rdr
    by_cases hd : s.readerDone = true
    · rw [hd] at hrdr
      simp only [if_true] at hrdr
      exact hrdr.1
    · have hdf : s.readerDone = false := Bool.not_eq_true _ |>.mp hd
      rw [hdf] at hrdr
      simp only [Bool.false_eq_true, if_false] at hrdr
      rw [hrdr.2] at hsd
      cases hsd
  | succ k =>
    have hk' : k < fs.length := by omega
    have hdone := (inv.closediff k hk').mp hsd
    have hwc := inv.wkr k hk'
    rw [workerClause, hdone] at hwc
    exact hwc.1

/-- If queue `k` is shut down and empty, all lines have also been popped
from it. -/
theorem cons_full_of_drained (L : List Bytes) (fs : List (Bytes → Bytes)) (C : Nat)
    (s : sys) (g : sysCfg) (inv : sysInvAt L fs C s g) (k : Nat) (hk : k ≤ fs.length)
    (hsd : (qAt s k).shutdown = true) (hsz : (qAt s k).size = 0) :
    g.c k = L.length := by
  have hp := prod_full_of_shutdown L fs C s g inv k hk hsd
  have habs : absItems (qAt s k) = [] :=
    List.eq_nil_of_length_eq_zero (by rw [absItems_length, hsz])
  have hq := inv.qabs k hk
  rw [habs] at hq
  have hseg : seg L (g.c k) (g.p k) = [] := List.map_eq_nil.mp hq.symm
  exact seg_nil_right L (g.c k) (g.p k) (inv.cle k hk) (inv.ple k hk) hseg hp

/-- The head item of a non-empty queue `k` is the stage-`k` image of the
next unconsumed line. -/
theorem head_item_of_queue (L : List Bytes) (fs : List (Bytes → Bytes)) (C : Nat)
    (s : sys) (g : sysCfg) (inv : sysInvAt L fs C s g) (k : Nat) (hk : k ≤ fs.length)
    (hsz : 0 < (qAt s k).size) :
    g.c k < g.p k ∧
    absItems (qAt s k)
      = Fc fs k (L.getD (g.c k) []) :: (seg L (g.c k + 1) (g.p k)).map (Fc fs k) := by
  have hq := inv.qabs k hk
  have hlen : 0 < (absItems (qAt s k)).length := by
    rw [absItems_length]
    exact hsz
  rw [hq] at hlen
  rw [List.length_map, seg, List.length_take, List.length_drop] at hlen
  have hcp : g.c k < g.p k := by omega
  refine ⟨hcp, ?_⟩
  rw [hq, seg_pop L (g.c k) (g.p k) hcp (inv.ple k hk), List.map_cons]

/-- A worker's step preserves the pipeline invariant. -/
theorem sysInv_workerStep (L : List Bytes) (fs : List (Bytes → Bytes)) (C : Nat)
    (s : sys) (k : Nat) (h : sysInv L fs C s) :
    sysInv L fs C (workerStep fs k s) := by
  obtain ⟨g, inv⟩ := h
  by_cases hk : k < fs.length
  case neg =>
    -- no such worker: the step is the identity
    have hnone : s.workers.get? k = none := by
      rw [List.get?_eq_getElem?, List.getElem?_eq_none]
      rw [inv.wlen]
      omega
    have hstep : workerStep fs k s = s := by
      simp only [workerStep, hnone]
    rw [hstep]
    exact ⟨g, inv⟩
  case pos =>
  have hwlen : k < s.workers.length := by
    rw [inv.wlen]
    exact hk
  have hqlenk : k < s.queues.length := by
    rw [inv.qlen]
    omega
  have hqlenk1 : k + 1 < s.queues.length := by
    rw [inv.qlen]
    omega
  have hget : s.workers.get? k = some (wAt s k) := by
    rw [List.get?_eq_getElem?, List.getElem?_eq_getElem hwlen, wAt,
      List.getD_eq_getElem s.workers ⟨false, wphase.done⟩ hwlen]
  have hstop : (wAt s k).stop = false := inv.nostop k hk
  have hwc := inv.wkr k hk
  rw [workerClause] at hwc
  cases hph : (wAt s k).phase with
  | done =>
    have hstep : workerStep fs k s = s := by
      simp only [workerStep, hget, hph]
    rw [hstep]
    exact ⟨g, inv⟩
  | ready =>
    rw [hph] at hwc
    by_cases hsz : (qAt s k).size = 0
    · by_cases hsd : (qAt s k).shutdown = true
      · -- pop returns QUEUE_SHUTDOWN: the worker moves to closing
        have hpop := queue_pop_end_spec (qAt s k) hsd hsz
        have hstep : workerStep fs k s
            = { s with queues := s.queues.set k (qAt s k),
                       workers := s.workers.set k
                         { wAt s k with phase := wphase.closing } } := by
          simp only [workerStep, hget, hph, hstop, Bool.false_eq_true, if_false, hpop]
        have hck : g.c k = L.length :=
          cons_full_of_drained L fs C s g inv k (le_of_lt hk) hsd hsz
        have hQ : ∀ j, qAt (workerStep fs k s) j = qAt s j := by
          intro j
          rw [hstep]
          show (s.queues.set k (qAt s k)).getD j default = qAt s j
          rw [getD_set_split s.queues k j (qAt s k) default hqlenk]
          by_cases hj : j = k
          · rw [if_pos hj, hj]
          · rw [if_neg hj]
            rfl
        have hW : ∀ j, wAt (workerStep fs k s) j
            = if j = k then { wAt s k with phase := wphase.closing } else wAt s j := by
          intro j
          rw [hstep]
          exact getD_set_split s.workers k j _ ⟨false, wphase.done⟩ hwlen
        have hSd : (workerStep fs k s).stdinLines = s.stdinLines := by
          rw [hstep]
        have hRd : (workerStep fs k s).readerDone = s.readerDone := by
          rw [hstep]
        have hOut : (workerStep fs k s).outLines = s.outLines := by
          rw [hstep]
        have hWd : (workerStep fs k s).writerDone = s.writerDone := by
          rw [hstep]
        have hQl : (workerStep fs k s).queues.length = s.queues.length := by
          rw [hstep]
          exact List.length_set s.queues k _
        have hWl : (workerStep fs k s).workers.length = s.workers.length := by
          rw [hstep]
          exact List.length_set s.workers k _
        refine ⟨g, ?_, ?_, ?_, ?_, ?_, ?_, ?_, ?_, ?_, ?_, ?_, ?_, ?_⟩
        · rw [hQl]
          exact inv.qlen
        · rw [hWl]
          exact inv.wlen
        · intro i hi
          rw [hQ i]
          exact inv.qinv i hi
        · intro i hi
          rw [hQ i]
          exact inv.qcap i hi
        · intro i hi
          rw [hW i]
          by_cases hj : i = k
          · rw [if_pos hj]
            exact hstop
          · rw [if_neg hj]
            exact inv.nostop i hi
        · exact inv.cle
        · exact inv.ple
        · intro i hi
          rw [hQ i]
          exact inv.qabs i hi
        · rw [hRd, hSd, hQ 0]
          exact inv.rdr
        · intro i hi
          rw [workerClause, hW i]
          by_cases hj : i = k
          · subst hj
            rw [if_pos rfl]
            show g.p (i + 1) = g.c i ∧ g.c i = L.length ∧
              (qAt (workerStep fs i s) i).shutdown = true
            rw [hQ i]
            exact ⟨hwc.trans rfl, hck, hsd⟩
          · rw [if_neg hj]
            have hwi := inv.wkr i hi
            rw [workerClause] at hwi
            cases hphi : (wAt s i).phase with
            | ready =>
              rw [hphi] at hwi
              exact hwi
            | pushing t =>
              rw [hphi] at hwi
              exact hwi
            | closing =>
              rw [hphi] at hwi
              show g.p (i + 1) = g.c i ∧ g.c i = L.length ∧
                (qAt (workerStep fs k s) i).shutdown = true
              rw [hQ i]
              exact hwi
            | done =>
              rw [hphi] at hwi
              show g.p (i + 1) = L.length ∧ g.c i = L.length ∧
                (qAt (workerStep fs k s) i).shutdown = true
              rw [hQ i]
              exact hwi
        · intro i hi
          rw [hQ (i + 1), hW i]
          by_cases hj : i = k
          · subst hj
            rw [if_pos rfl]
            have hold := inv.closediff i hi
            rw [hph] at hold
            refine iff_of_false ?_ ?_
            · intro hcon
              exact absurd (hold.mp hcon) (by decide)
            · intro hcon
              cases hcon
          · rw [if_neg hj]
            exact inv.closediff i hi
        · rw [hOut]
          exact inv.wout
        · rw [hWd]
          intro hw
          obtain ⟨hc, hsdN⟩ := inv.wdone hw
          rw [hQ fs.length]
          exact ⟨hc, hsdN⟩
      · -- empty and open: the pop blocks, nothing changes
        have hsd' : (qAt s k).shutdown = false := Bool.not_eq_true _ |>.mp hsd
        have hpop := queue_pop_block_spec (qAt s k) hsd' hsz
        have hstep : workerStep fs k s = s := by
          simp only [workerStep, hget, hph, hstop, Bool.false_eq_true, if_false, hpop]
        rw [hstep]
        exact ⟨g, inv⟩
    · -- non-empty: the worker pops one string and prepares its transform
      have hpos : 0 < (qAt s k).size := Nat.pos_of_ne_zero hsz
      obtain ⟨hp1, hp2, hp3, hp4, hp5, -⟩ :=
        queue_pop_ok_spec (qAt s k) (inv.qinv k (le_of_lt hk)) hpos
      obtain ⟨hcp, habs⟩ :=
        head_item_of_queue L fs C s g inv k (le_of_lt hk) hpos
      have hv : ((qAt s k).buffer.getD (qAt s k).head none).getD []
            = Fc fs k (L.getD (g.c k) [])
          ∧ absItems (queue_pop (qAt s k)).2
            = (seg L (g.c k + 1) (g.p k)).map (Fc fs k) := by
        have := hp2.symm.trans habs
        exact ⟨(List.cons.injEq _ _ _ _).mp this |>.1, (List.cons.injEq _ _ _ _).mp this |>.2⟩
      have hstep : workerStep fs k s
          = { s with queues := s.queues.set k (queue_pop (qAt s k)).2,
                     workers := s.workers.set k
                       { wAt s k with phase := (wphase.pushing ((fs.getD k id)
                           (((qAt s k).buffer.getD (qAt s k).head none).getD []))) } } := by
        simp only [workerStep, hget, hph, hstop, Bool.false_eq_true, if_false, hp1]
      have hQ : ∀ j, qAt (workerStep fs k s) j
          = if j = k then (queue_pop (qAt s k)).2 else qAt s j := by
        intro j
        rw [hstep]
        exact getD_set_split s.queues k j _ default hqlenk
      have hW : ∀ j, wAt (workerStep fs k s) j
          = if j = k then { wAt s k with phase := (wphase.pushing ((fs.getD k id)
              (((qAt s k).buffer.getD (qAt s k).head none).getD []))) }
            else wAt s j := by
        intro j
        rw [hstep]
        exact getD_set_split s.workers k j _ ⟨false, wphase.done⟩ hwlen
      have hSd : (workerStep fs k s).stdinLines = s.stdinLines := by
        rw [hstep]
      have hRd : (workerStep fs k s).readerDone = s.readerDone := by
        rw [hstep]
      have hOut : (workerStep fs k s).outLines = s.outLines := by
        rw [hstep]
      have hWd : (workerStep fs k s).writerDone = s.writerDone := by
        rw [hstep]
      have hQl : (workerStep fs k s).queues.length = s.queues.length := by
        rw [hstep]
        exact List.length_set s.queues k _
      have hWl : (workerStep fs k s).workers.length = s.workers.length := by
        rw [hstep]
        exact List.length_set s.workers k _
      have hshut : ∀ j, (qAt (workerStep fs k s) j).shutdown = (qAt s j).shutdown := by
        intro j
        rw [hQ j]
        by_cases hj : j = k
        · rw [if_pos hj, hj]
          exact hp4
        · rw [if_neg hj]
      refine ⟨⟨g.p, fun j => if j = k then g.c k + 1 else g.c j⟩, ?_, ?_, ?_, ?_, ?_,
        ?_, ?_, ?_, ?_, ?_, ?_, ?_, ?_⟩
      · rw [hQl]
        exact inv.qlen
      · rw [hWl]
        exact inv.wlen
      · intro i hi
        rw [hQ i]
        by_cases hj : i = k
        · rw [if_pos hj]
          exact hp3
        · rw [if_neg hj]
          exact inv.qinv i hi
      · intro i hi
        rw [hQ i]
        by_cases hj : i = k
        · rw [if_pos hj, hp5]
          exact inv.qcap k (le_of_lt hk)
        · rw [if_neg hj]
          exact inv.qcap i hi
      · intro i hi
        rw [hW i]
        by_cases hj : i = k
        · rw [if_pos hj]
          exact hstop
        · rw [if_neg hj]
          exact inv.nostop i hi
      · intro i hi
        show (if i = k then g.c k + 1 else g.c i) ≤ g.p i
        by_cases hj : i = k
        · subst hj
          rw [if_pos rfl]
          exact hcp
        · rw [if_neg hj]
          exact inv.cle i hi
      · exact inv.ple
      · intro i hi
        rw [hQ i]
        by_cases hj : i = k
        · subst hj
          rw [if_pos rfl]
          show absItems (queue_pop (qAt s i)).2
            = (seg L (if i = i then g.c i + 1 else g.c i) (g.p i)).map (Fc fs i)
          rw [if_pos rfl]
          exact hv.2
        · rw [if_neg hj]
          show absItems (qAt s i)
            = (seg L (if i = k then g.c k + 1 else g.c i) (g.p i)).map (Fc fs i)
          rw [if_neg hj]
          exact inv.qabs i hi
      · rw [hRd, hSd, hshut 0]
        have hrdr := inv.rdr
        by_cases hd : s.readerDone = true
        · rw [hd] at hrdr ⊢
          simp only [if_true] at hrdr ⊢
          exact hrdr
        · have hdf : s.readerDone = false := Bool.not_eq_true _ |>.mp hd
          rw [hdf] at hrdr ⊢
          simp only [Bool.false_eq_true, if_false] at hrdr ⊢
          exact hrdr
      · intro i hi
        rw [workerClause, hW i]
        by_cases hj : i = k
        · subst hj
          rw [if_pos rfl]
          show (if i = i then g.c i + 1 else g.c i) = g.p (i + 1) + 1 ∧
            g.p (i + 1) < L.length ∧
            (fs.getD i id) (((qAt s i).buffer.getD (qAt s i).head none).getD [])
              = Fc fs (i + 1) (L.getD (g.p (i + 1)) [])
          rw [if_pos rfl, hwc]
          refine ⟨?_, ?_, ?_⟩
          · omega
          · have := inv.ple i (le_of_lt hi)
            omega
          · rw [hv.1, Fc_succ fs i hi]
        · rw [if_neg hj]
          have hwi := inv.wkr i hi
          rw [workerClause] at hwi
          cases hphi : (wAt s i).phase with
          | ready =>
            rw [hphi] at hwi
            show g.p (i + 1) = (if i = k then g.c k + 1 else g.c i)
            rw [if_neg hj]
            exact hwi
          | pushing t =>
            rw [hphi] at hwi
            show (if i = k then g.c k + 1 else g.c i) = g.p (i + 1) + 1 ∧
              g.p (i + 1) < L.length ∧ t = Fc fs (i + 1) (L.getD (g.p (i + 1)) [])
            rw [if_neg hj]
            exact hwi
          | closing =>
            rw [hphi] at hwi
            show g.p (i + 1) = (if i = k then g.c k + 1 else g.c i) ∧
              (if i = k then g.c k + 1 else g.c i) = L.length ∧
              (qAt (workerStep fs k s) i).shutdown = true
            rw [if_neg hj, hshut i]
            exact hwi
          | done =>
            rw [hphi] at hwi
            show g.p (i + 1) = L.length ∧
              (if i = k then g.c k + 1 else g.c i) = L.length ∧
              (qAt (workerStep fs k s) i).shutdown = true
            rw [if_neg hj, hshut i]
            exact hwi
      · intro i hi
        rw [hshut (i + 1), hW i]
        by_cases hj : i = k
        · subst hj
          rw [if_pos rfl]
          have hold := inv.closediff i hi
          rw [hph] at hold
          refine iff_of_false ?_ ?_
          · intro hcon
            exact absurd (hold.mp hcon) (by decide)
          · intro hcon
            cases hcon
        · rw [if_neg hj]
          exact inv.closediff i hi
      · rw [hOut]
        show s.outLines
          = (L.take (if fs.length = k then g.c k + 1 else g.c fs.length)).map (Fc fs fs.length)
        rw [if_neg (by omega)]
        exact inv.wout
      · rw [hWd]
        intro hw
        obtain ⟨hc, hsdN⟩ := inv.wdone hw
        rw [hshut fs.length]
        refine ⟨?_, hsdN⟩
        show (if fs.length = k then g.c k + 1 else g.c fs.length) = L.length
        rw [if_neg (by omega)]
        exact hc
  | pushing t =>
    rw [hph] at hwc
    obtain ⟨hc1, hc2, hc3⟩ := hwc
    have hopen : (qAt s (k + 1)).shutdown = false := by
      by_cases hsd : (qAt s (k + 1)).shutdown = true
      · have hdone := (inv.closediff k hk).mp hsd
        rw [hph] at hdone
        exact wphase.noConfusion hdone
      · exact Bool.not_eq_true _ |>.mp hsd
    by_cases hfull : (qAt s (k + 1)).capacity ≤ (qAt s (k + 1)).size
    · have hpush := queue_push_block_spec (qAt s (k + 1)) t hopen hfull
      have hstep : workerStep fs k s = s := by
        simp only [workerStep, hget, hph, hpush]
      rw [hstep]
      exact ⟨g, inv⟩
    · have hszlt : (qAt s (k + 1)).size < (qAt s (k + 1)).capacity := Nat.not_le.mp hfull
      obtain ⟨hq1, hq2, hq3, hq4, hq5, -⟩ :=
        queue_push_ok_spec (qAt s (k + 1)) t (inv.qinv (k + 1) (by omega)) hopen hszlt
      have hstep : workerStep fs k s
          = { s with queues := s.queues.set (k + 1) (queue_push (qAt s (k + 1)) t).2,
                     workers := s.workers.set k { wAt s k with phase := wphase.ready } } := by
        simp only [workerStep, hget, hph, hq1]
      have hQ : ∀ j, qAt (workerStep fs k s) j
          = if j = k + 1 then (queue_push (qAt s (k + 1)) t).2 else qAt s j := by
        intro j
        rw [hstep]
        exact getD_set_split s.queues (k + 1) j _ default hqlenk1
      have hW : ∀ j, wAt (workerStep fs k s) j
          = if j = k then { wAt s k with phase := wphase.ready } else wAt s j := by
        intro j
        rw [hstep]
        exact getD_set_split s.workers k j _ ⟨false, wphase.done⟩ hwlen
      have hSd : (workerStep fs k s).stdinLines = s.stdinLines := by
        rw [hstep]
      have hRd : (workerStep fs k s).readerDone = s.readerDone := by
        rw [hstep]
      have hOut : (workerStep fs k s).outLines = s.outLines := by
        rw [hstep]
      have hWd : (workerStep fs k s).writerDone = s.writerDone := by
        rw [hstep]
      have hQl : (workerStep fs k s).queues.length = s.queues.length := by
        rw [hstep]
        exact List.length_set s.queues (k + 1) _
      have hWl : (workerStep fs k s).workers.length = s.workers.length := by
        rw [hstep]
        exact List.length_set s.workers k _
      have hshut : ∀ j, (qAt (workerStep fs k s) j).shutdown = (qAt s j).shutdown := by
        intro j
        rw [hQ j]
        by_cases hj : j = k + 1
        · rw [if_pos hj, hj]
          exact hq4
        · rw [if_neg hj]
      refine ⟨⟨fun j => if j = k + 1 then g.p (k + 1) + 1 else g.p j, g.c⟩, ?_, ?_, ?_,
        ?_, ?_, ?_, ?_, ?_, ?_, ?_, ?_, ?_, ?_⟩
      · rw [hQl]
        exact inv.qlen
      · rw [hWl]
        exact inv.wlen
      · intro i hi
        rw [hQ i]
        by_cases hj : i = k + 1
        · rw [if_pos hj]
          exact hq3
        · rw [if_neg hj]
          exact inv.qinv i hi
      · intro i hi
        rw [hQ i]
        by_cases hj : i = k + 1
        · rw [if_pos hj, hq5]
          exact inv.qcap (k + 1) (by omega)
        · rw [if_neg hj]
          exact inv.qcap i hi
      · intro i hi
        rw [hW i]
        by_cases hj : i = k
        · rw [if_pos hj]
          exact hstop
        · rw [if_neg hj]
          exact inv.nostop i hi
      · intro i hi
        show g.c i ≤ if i = k + 1 then g.p (k + 1) + 1 else g.p i
        by_cases hj : i = k + 1
        · rw [if_pos hj, hj]
          exact le_trans (inv.cle (k + 1) (by omega)) (Nat.le_succ _)
        · rw [if_neg hj]
          exact inv.cle i hi
      · intro i hi
        show (if i = k + 1 then g.p (k + 1) + 1 else g.p i) ≤ L.length
        by_cases hj : i = k + 1
        · subst hj
          rw [if_pos rfl]
          omega
        · rw [if_neg hj]
          exact inv.ple i hi
      · intro i hi
        by_cases hj : i = k + 1
        · rw [hj, hQ (k + 1), if_pos rfl]
          show absItems (queue_push (qAt s (k + 1)) t).2
            = (seg L (g.c (k + 1))
                (if k + 1 = k + 1 then g.p (k + 1) + 1 else g.p (k + 1))).map (Fc fs (k + 1))
          rw [if_pos rfl, hq2, inv.qabs (k + 1) (by omega),
            seg_push L (g.c (k + 1)) (g.p (k + 1)) (inv.cle (k + 1) (by omega)) hc2,
            List.map_append, hc3]
          rfl
        · rw [hQ i, if_neg hj]
          show absItems (qAt s i)
            = (seg L (g.c i) (if i = k + 1 then g.p (k + 1) + 1 else g.p i)).map (Fc fs i)
          rw [if_neg hj]
          exact inv.qabs i hi
      · rw [hRd, hSd, hshut 0]
        have hrdr := inv.rdr
        by_cases hd : s.readerDone = true
        · rw [hd] at hrdr ⊢
          simp only [if_true] at hrdr ⊢
          refine ⟨?_, hrdr.2⟩
          show (if (0 : Nat) = k + 1 then g.p (k + 1) + 1 else g.p 0) = L.length
          rw [if_neg (by omega)]
          exact hrdr.1
        · have hdf : s.readerDone = false := Bool.not_eq_true _ |>.mp hd
          rw [hdf] at hrdr ⊢
          simp only [Bool.false_eq_true, if_false] at hrdr ⊢
          refine ⟨?_, hrdr.2⟩
          show s.stdinLines
            = (L ++ [endBytes]).drop (if (0 : Nat) = k + 1 then g.p (k + 1) + 1 else g.p 0)
          rw [if_neg (by omega)]
          exact hrdr.1
      · intro i hi
        rw [workerClause, hW i]
        by_cases hj : i = k
        · subst hj
          rw [if_pos rfl]
          show (if i + 1 = i + 1 then g.p (i + 1) + 1 else g.p (i + 1)) = g.c i
          rw [if_pos rfl]
          exact hc1.symm
        · rw [if_neg hj]
          have hwi := inv.wkr i hi
          rw [workerClause] at hwi
          have hne1 : ¬ (i + 1 = k + 1) := fun hcon => hj (Nat.succ_injective hcon)
          cases hphi : (wAt s i).phase with
          | ready =>
            rw [hphi] at hwi
            show (if i + 1 = k + 1 then g.p (k + 1) + 1 else g.p (i + 1)) = g.c i
            rw [if_neg hne1]
            exact hwi
          | pushing u =>
            rw [hphi] at hwi
            show g.c i = (if i + 1 = k + 1 then g.p (k + 1) + 1 else g.p (i + 1)) + 1 ∧
              (if i + 1 = k + 1 then g.p (k + 1) + 1 else g.p (i + 1)) < L.length ∧
              u = Fc fs (i + 1)
                (L.getD (if i + 1 = k + 1 then g.p (k + 1) + 1 else g.p (i + 1)) [])
            rw [if_neg hne1]
            exact hwi
          | closing =>
            rw [hphi] at hwi
            show (if i + 1 = k + 1 then g.p (k + 1) + 1 else g.p (i + 1)) = g.c i ∧
              g.c i = L.length ∧ (qAt (workerStep fs k s) i).shutdown = true
            rw [if_neg hne1, hshut i]
            exact hwi
          | done =>
            rw [hphi] at hwi
            show (if i + 1 = k + 1 then g.p (k + 1) + 1 else g.p (i + 1)) = L.length ∧
              g.c i = L.length ∧ (qAt (workerStep fs k s) i).shutdown = true
            rw [if_neg hne1, hshut i]
            exact hwi
      · intro i hi
        rw [hshut (i + 1), hW i]
        by_cases hj : i = k
        · subst hj
          rw [if_pos rfl]
          refine iff_of_false ?_ ?_
          · intro hcon
            rw [hopen] at hcon
            cases hcon
          · intro hcon
            exact wphase.noConfusion hcon
        · rw [if_neg hj]
          exact inv.closediff i hi
      · rw [hOut]
        exact inv.wout
      · rw [hWd]
        intro hw
        obtain ⟨hc, hsdN⟩ := inv.wdone hw
        rw [hshut fs.length]
        exact ⟨hc, hsdN⟩
  | closing =>
    rw [hph] at hwc
    obtain ⟨hl1, hl2, hl3⟩ := hwc
    have hstep : workerStep fs k s
        = { s with queues := s.queues.set (k + 1) (queue_shutdown (qAt s (k + 1))),
                   workers := s.workers.set k { wAt s k with phase := wphase.done } } := by
      simp only [workerStep, hget, hph]
    have hQ : ∀ j, qAt (workerStep fs k s) j
        = if j = k + 1 then queue_shutdown (qAt s (k + 1)) else qAt s j := by
      intro j
      rw [hstep]
      exact getD_set_split s.queues (k + 1) j _ default hqlenk1
    have hW : ∀ j, wAt (workerStep fs k s) j
        = if j = k then { wAt s k with phase := wphase.done } else wAt s j := by
      intro j
      rw [hstep]
      exact getD_set_split s.workers k j _ ⟨false, wphase.done⟩ hwlen
    have hSd : (workerStep fs k s).stdinLines = s.stdinLines := by
      rw [hstep]
    have hRd : (workerStep fs k s).readerDone = s.readerDone := by
      rw [hstep]
    have hOut : (workerStep fs k s).outLines = s.outLines := by
      rw [hstep]
    have hWd : (workerStep fs k s).writerDone = s.writerDone := by
      rw [hstep]
    have hQl : (workerStep fs k s).queues.length = s.queues.length := by
      rw [hstep]
      exact List.length_set s.queues (k + 1) _
    have hWl : (workerStep fs k s).workers.length = s.workers.length := by
      rw [hstep]
      exact List.length_set s.workers k _
    refine ⟨g, ?_, ?_, ?_, ?_, ?_, ?_, ?_, ?_, ?_, ?_, ?_, ?_, ?_⟩
    · rw [hQl]
      exact inv.qlen
    · rw [hWl]
      exact inv.wlen
    · intro i hi
      rw [hQ i]
      by_cases hj : i = k + 1
      · rw [if_pos hj]
        exact queueInv_shutdown _ (inv.qinv (k + 1) (by omega))
      · rw [if_neg hj]
        exact inv.qinv i hi
    · intro i hi
      rw [hQ i]
      by_cases hj : i = k + 1
      · rw [if_pos hj]
        exact inv.qcap (k + 1) (by omega)
      · rw [if_neg hj]
        exact inv.qcap i hi
    · intro i hi
      rw [hW i]
      by_cases hj : i = k
      · rw [if_pos hj]
        exact hstop
      · rw [if_neg hj]
        exact inv.nostop i hi
    · exact inv.cle
    · exact inv.ple
    · intro i hi
      rw [hQ i]
      by_cases hj : i = k + 1
      · rw [if_pos hj, absItems_shutdown, hj]
        exact inv.qabs (k + 1) (by omega)
      · rw [if_neg hj]
        exact inv.qabs i hi
    · rw [hRd, hSd]
      have hq0 : (qAt (workerStep fs k s) 0).shutdown = (qAt s 0).shutdown := by
        rw [hQ 0, if_neg (show ¬ ((0 : Nat) = k + 1) by omega)]
      rw [hq0]
      exact inv.rdr
    · intro i hi
      rw [workerClause, hW i]
      by_cases hj : i = k
      · subst hj
        rw [if_pos rfl]
        show g.p (i + 1) = L.length ∧ g.c i = L.length ∧
          (qAt (workerStep fs i s) i).shutdown = true
        rw [hQ i, if_neg (by omega)]
        exact ⟨hl1.trans hl2, hl2, hl3⟩
      · rw [if_neg hj]
        have hwi := inv.wkr i hi
        rw [workerClause] at hwi
        cases hphi : (wAt s i).phase with
        | ready =>
          rw [hphi] at hwi
          exact hwi
        | pushing u =>
          rw [hphi] at hwi
          exact hwi
        | closing =>
          rw [hphi] at hwi
          show g.p (i + 1) = g.c i ∧ g.c i = L.length ∧
            (qAt (workerStep fs k s) i).shutdown = true
          refine ⟨hwi.1, hwi.2.1, ?_⟩
          rw [hQ i]
          by_cases hik : i = k + 1
          · rw [if_pos hik]
            rfl
          · rw [if_neg hik]
            exact hwi.2.2
        | done =>
          rw [hphi] at hwi
          show g.p (i + 1) = L.length ∧ g.c i = L.length ∧
            (qAt (workerStep fs k s) i).shutdown = true
          refine ⟨hwi.1, hwi.2.1, ?_⟩
          rw [hQ i]
          by_cases hik : i = k + 1
          · rw [if_pos hik]
            rfl
          · rw [if_neg hik]
            exact hwi.2.2
    · intro i hi
      rw [hQ (i + 1), hW i]
      by_cases hj : i = k
      · subst hj
        rw [if_pos rfl, if_pos rfl]
        exact iff_of_true rfl rfl
      · have hne1 : ¬ (i + 1 = k + 1) := fun hcon => hj (Nat.succ_injective hcon)
        rw [if_neg hne1, if_neg hj]
        exact inv.closediff i hi
    · rw [hOut]
      exact inv.wout
    · rw [hWd]
      intro hw
      obtain ⟨hc, hsdN⟩ := inv.wdone hw
      rw [hQ fs.length]
      refine ⟨hc, ?_⟩
      by_cases hik : fs.length = k + 1
      · rw [if_pos hik]
        rfl
      · rw [if_neg hik]
        exact hsdN

theorem take_succ_getD (l : List α) (n : Nat) (d : α) (h : n < l.length) :
    l.take (n + 1) = l.take n ++ [l.getD n d] := by
  rw [List.take_succ, List.getElem?_eq_getElem h, List.getD_eq_getElem l d h]
  rfl

/-- The writer's step preserves the pipeline invariant. -/
theorem sysInv_writerStep (L : List Bytes) (fs : List (Bytes → Bytes)) (C : Nat)
    (s : sys) (h : sysInv L fs C s) :
    sysInv L fs C (writerStep fs.length s) := by
  obtain ⟨g, inv⟩ := h
  by_cases hw : s.writerDone = true
  · have hstep : writerStep fs.length s = s := by
      simp only [writerStep, hw, if_true]
    rw [hstep]
    exact ⟨g, inv⟩
  · have hwf : s.writerDone = false := Bool.not_eq_true _ |>.mp hw
    have hNle : fs.length ≤ fs.length := le_refl _
    by_cases hsz : (qAt s fs.length).size = 0
    · by_cases hsd : (qAt s fs.length).shutdown = true
      · -- end of stream: the writer exits
        have hpop := queue_pop_end_spec (qAt s fs.length) hsd hsz
        have hstep : writerStep fs.length s = { s with writerDone := true } := by
          simp only [writerStep, hwf, Bool.false_eq_true, if_false, hpop]
        have hck : g.c fs.length = L.length :=
          cons_full_of_drained L fs C s g inv fs.length hNle hsd hsz
        rw [hstep]
        refine ⟨g, ?_, ?_, ?_, ?_, ?_, ?_, ?_, ?_, ?_, ?_, ?_, ?_, ?_⟩
        · exact inv.qlen
        · exact inv.wlen
        · exact inv.qinv
        · exact inv.qcap
        · exact inv.nostop
        · exact inv.cle
        · exact inv.ple
        · exact inv.qabs
        · exact inv.rdr
        · exact inv.wkr
        · exact inv.closediff
        · exact inv.wout
        · intro _
          exact ⟨hck, hsd⟩
      · -- empty and open: the pop blocks
        have hsd' : (qAt s fs.length).shutdown = false := Bool.not_eq_true _ |>.mp hsd
        have hpop := queue_pop_block_spec (qAt s fs.length) hsd' hsz
        have hstep : writerStep fs.length s = s := by
          simp only [writerStep, hwf, Bool.false_eq_true, if_false, hpop]
        rw [hstep]
        exact ⟨g, inv⟩
    · -- a string is delivered and printed
      have hpos : 0 < (qAt s fs.length).size := Nat.pos_of_ne_zero hsz
      have hqlenN : fs.length < s.queues.length := by
        rw [inv.qlen]
        omega
      obtain ⟨hp1, hp2, hp3, hp4, hp5, -⟩ :=
        queue_pop_ok_spec (qAt s fs.length) (inv.qinv fs.length hNle) hpos
      obtain ⟨hcp, habs⟩ := head_item_of_queue L fs C s g inv fs.length hNle hpos
      have hv : ((qAt s fs.length).buffer.getD (qAt s fs.length).head none).getD []
            = Fc fs fs.length (L.getD (g.c fs.length) [])
          ∧ absItems (queue_pop (qAt s fs.length)).2
            = (seg L (g.c fs.length + 1) (g.p fs.length)).map (Fc fs fs.length) := by
        have := hp2.symm.trans habs
        exact ⟨(List.cons.injEq _ _ _ _).mp this |>.1, (List.cons.injEq _ _ _ _).mp this |>.2⟩
      have hstep : writerStep fs.length s
          = { s with queues := s.queues.set fs.length (queue_pop (qAt s fs.length)).2,
                     outLines := s.outLines
                       ++ [((qAt s fs.length).buffer.getD (qAt s fs.length).head none).getD []] } := by
        simp only [writerStep, hwf, Bool.false_eq_true, if_false, hp1]
      have hQ : ∀ j, qAt (writerStep fs.length s) j
          = if j = fs.length then (queue_pop (qAt s fs.length)).2 else qAt s j := by
        intro j
        rw [hstep]
        exact getD_set_split s.queues fs.length j _ default hqlenN
      have hW : ∀ j, wAt (writerStep fs.length s) j = wAt s j := by
        intro j
        rw [hstep]
        rfl
      have hSd : (writerStep fs.length s).stdinLines = s.stdinLines := by
        rw [hstep]
      have hRd : (writerStep fs.length s).readerDone = s.readerDone := by
        rw [hstep]
      have hOut : (writerStep fs.length s).outLines = s.outLines
          ++ [((qAt s fs.length).buffer.getD (qAt s fs.length).head none).getD []] := by
        rw [hstep]
      have hWd : (writerStep fs.length s).writerDone = s.writerDone := by
        rw [hstep]
      have hQl : (writerStep fs.length s).queues.length = s.queues.length := by
        rw [hstep]
        exact List.length_set s.queues fs.length _
      have hWl : (writerStep fs.length s).workers.length = s.workers.length := by
        rw [hstep]
      have hshut : ∀ j, (qAt (writerStep fs.length s) j).shutdown = (qAt s j).shutdown := by
        intro j
        rw [hQ j]
        by_cases hj : j = fs.length
        · rw [if_pos hj, hj]
          exact hp4
        · rw [if_neg hj]
      refine ⟨⟨g.p, fun j => if j = fs.length then g.c fs.length + 1 else g.c j⟩, ?_, ?_,
        ?_, ?_, ?_, ?_, ?_, ?_, ?_, ?_, ?_, ?_, ?_⟩
      · rw [hQl]
        exact inv.qlen
      · rw [hWl]
        exact inv.wlen
      · intro i hi
        rw [hQ i]
        by_cases hj : i = fs.length
        · rw [if_pos hj]
          exact hp3
        · rw [if_neg hj]
          exact inv.qinv i hi
      · intro i hi
        rw [hQ i]
        by_cases hj : i = fs.length
        · rw [if_pos hj, hp5]
          exact inv.qcap fs.length hNle
        · rw [if_neg hj]
          exact inv.qcap i hi
      · intro i hi
        rw [hW i]
        exact inv.nostop i hi
      · intro i hi
        show (if i = fs.length then g.c fs.length + 1 else g.c i) ≤ g.p i
        by_cases hj : i = fs.length
        · rw [if_pos hj, hj]
          exact hcp
        · rw [if_neg hj]
          exact inv.cle i hi
      · exact inv.ple
      · intro i hi
        by_cases hj : i = fs.length
        · rw [hj, hQ fs.length, if_pos rfl]
          show absItems (queue_pop (qAt s fs.length)).2
            = (seg L (if fs.length = fs.length then g.c fs.length + 1 else g.c fs.length)
                (g.p fs.length)).map (Fc fs fs.length)
          rw [if_pos rfl]
          exact hv.2
        · rw [hQ i, if_neg hj]
          show absItems (qAt s i)
            = (seg L (if i = fs.length then g.c fs.length + 1 else g.c i) (g.p i)).map (Fc fs i)
          rw [if_neg hj]
          exact inv.qabs i hi
      · rw [hRd, hSd, hshut 0]
        exact inv.rdr
      · intro i hi
        rw [workerClause, hW i]
        have hwi := inv.wkr i hi
        rw [workerClause] at hwi
        have hne : ¬ (i = fs.length) := by omega
        cases hphi : (wAt s i).phase with
        | ready =>
          rw [hphi] at hwi
          show g.p (i + 1) = (if i = fs.length then g.c fs.length + 1 else g.c i)
          rw [if_neg hne]
          exact hwi
        | pushing u =>
          rw [hphi] at hwi
          show (if i = fs.length then g.c fs.length + 1 else g.c i) = g.p (i + 1) + 1 ∧
            g.p (i + 1) < L.length ∧ u = Fc fs (i + 1) (L.getD (g.p (i + 1)) [])
          rw [if_neg hne]
          exact hwi
        | closing =>
          rw [hphi] at hwi
          show g.p (i + 1) = (if i = fs.length then g.c fs.length + 1 else g.c i) ∧
            (if i = fs.length then g.c fs.length + 1 else g.c i) = L.length ∧
            (qAt (writerStep fs.length s) i).shutdown = true
          rw [if_neg hne, hshut i]
          exact hwi
        | done =>
          rw [hphi] at hwi
          show g.p (i + 1) = L.length ∧
            (if i = fs.length then g.c fs.length + 1 else g.c i) = L.length ∧
            (qAt (writerStep fs.length s) i).shutdown = true
          rw [if_neg hne, hshut i]
          exact hwi
      · intro i hi
        rw [hshut (i + 1), hW i]
        exact inv.closediff i hi
      · rw [hOut]
        show s.outLines ++ [((qAt s fs.length).buffer.getD (qAt s fs.length).head none).getD []]
          = (L.take (if fs.length = fs.length then g.c fs.length + 1 else g.c fs.length)).map
              (Fc fs fs.length)
        rw [if_pos rfl, take_succ_getD L (g.c fs.length) []
            (by have := inv.ple fs.length hNle; omega),
          List.map_append, inv.wout, hv.1]
        rfl
      · rw [hWd]
        intro hwd
        rw [hwf] at hwd
        cases hwd

/-- Any single step of any thread preserves the pipeline invariant. -/
theorem sysInv_step (L : List Bytes) (fs : List (Bytes → Bytes)) (C : Nat)
    (hE : endBytes ∉ L) (t : tid) (s : sys) (h : sysInv L fs C s) :
    sysInv L fs C (sysStep fs t s) := by
  cases t with
  | reader => exact sysInv_readerStep L fs C hE s h
  | worker i => exact sysInv_workerStep L fs C s i h
  | writer => exact sysInv_writerStep L fs C s h

/-- The invariant holds after running any schedule. -/
theorem sysInv_run (L : List Bytes) (fs : List (Bytes → Bytes)) (C : Nat)
    (hE : endBytes ∉ L) : ∀ (sched : List tid) (s : sys), sysInv L fs C s →
    sysInv L fs C (sysRun fs sched s) := by
  intro sched
  induction sched with
  | nil =>
    intro s h
    exact h
  | cons t rest ih =>
    intro s h
    exact ih (sysStep fs t s) (sysInv_step L fs C hE t s h)

/-- In any invariant state all workers downstream of a shut-down final
queue have exited. -/
theorem workers_done_chain (L : List Bytes) (fs : List (Bytes → Bytes)) (C : Nat)
    (s : sys) (g : sysCfg) (inv : sysInvAt L fs C s g)
    (hNsd : (qAt s fs.length).shutdown = true) :
    ∀ d, d < fs.length → (wAt s (fs.length - 1 - d)).phase = wphase.done := by
  intro d
  induction d with
  | zero =>
    intro hd
    have heq : fs.length - 1 - 0 + 1 = fs.length := by omega
    have := (inv.closediff (fs.length - 1 - 0) (by omega)).mp (by rw [heq]; exact hNsd)
    exact this
  | succ d ih =>
    intro hd
    have hdone := ih (by omega)
    have hwc := inv.wkr (fs.length - 1 - d) (by omega)
    rw [workerClause, hdone] at hwc
    have hsd : (qAt s (fs.length - 1 - d)).shutdown = true := hwc.2.2
    have heq : fs.length - 1 - (d + 1) + 1 = fs.length - 1 - d := by omega
    exact (inv.closediff (fs.length - 1 - (d + 1)) (by omega)).mp (by rw [heq]; exact hsd)

/-- Terminal correctness: in any invariant state in which the writer has
exited, the written lines are exactly the input lines mapped through the
full transform chain, every worker thread has exited, and the reader has
exited — so the joins in `main` all return and the process reaches its
final `return 0`. -/
theorem sysInv_terminal (L : List Bytes) (fs : List (Bytes → Bytes)) (C : Nat)
    (s : sys) (h : sysInv L fs C s) (hw : s.writerDone = true) :
    s.outLines = L.map (chainApply fs) ∧
    (∀ i, i < fs.length → (wAt s i).phase = wphase.done) ∧
    s.readerDone = true := by
  obtain ⟨g, inv⟩ := h
  obtain ⟨hcN, hNsd⟩ := inv.wdone hw
  have hout : s.outLines = L.map (chainApply fs) := by
    rw [inv.wout, hcN, List.take_length]
    apply List.map_congr_left
    intro x _
    exact Fc_length fs x
  have hdone : ∀ i, i < fs.length → (wAt s i).phase = wphase.done := by
    intro i hi
    have heq : i = fs.length - 1 - (fs.length - 1 - i) := by omega
    rw [heq]
    exact workers_done_chain L fs C s g inv hNsd (fs.length - 1 - i) (by omega)
  have hq0sd : (qAt s 0).shutdown = true := by
    cases Nat.eq_zero_or_pos fs.length with
    | inl h0 =>
      rw [h0] at hNsd
      exact hNsd
    | inr hpos =>
      have hw0 := inv.wkr 0 hpos
      rw [workerClause, hdone 0 hpos] at hw0
      exact hw0.2.2
  refine ⟨hout, hdone, ?_⟩
  by_cases hrd : s.readerDone = true
  · exact hrd
  · have hdf : s.readerDone = false := Bool.not_eq_true _ |>.mp hrd
    have hrdr := inv.rdr
    rw [hdf] at hrdr
    simp only [Bool.false_eq_true, if_false] at hrdr
    rw [hrdr.2] at hq0sd
    cases hq0sd

/-! ### A canonical terminating schedule

For liveness we run the pipeline on the schedule that forwards one line at
a time: reader, then each worker twice (pop, push), then the writer — and
one more such round for the shutdown cascade.  The intermediate states are
uniform, so we represent the queue and worker lists as `List.range` maps. -/

theorem getD_map_range {n i : Nat} (f : Nat → α) (d : α) (h : i < n) :
    ((List.range n).map f).getD i d = f i := by
  rw [List.getD, List.get?_eq_getElem?, List.getElem?_map, List.getElem?_range h]
  rfl

theorem get?_map_range {n i : Nat} (f : Nat → α) (h : i < n) :
    ((List.range n).map f).get? i = some (f i) := by
  rw [List.get?_eq_getElem?, List.getElem?_map, List.getElem?_range h]
  rfl

theorem set_map_range {n i : Nat} (f : Nat → α) (v : α) (h : i < n) :
    ((List.range n).map f).set i v = (List.range n).map (fun j => if j = i then v else f j) := by
  apply List.ext_getElem?
  intro m
  rw [List.getElem?_set]
  by_cases hm : m < n
  · by_cases hmi : i = m
    · subst hmi
      rw [if_pos rfl, if_pos (by rw [List.length_map, List.length_range]; exact h),
        List.getElem?_map, List.getElem?_range hm]
      simp
    · rw [if_neg hmi, List.getElem?_map, List.getElem?_map, List.getElem?_range hm]
      simp only [Option.map_some', Option.some.injEq]
      rw [if_neg (fun hc => hmi hc.symm)]
  · have hr : (List.range n)[m]? = none :=
      List.getElem?_eq_none (by rw [List.length_range]; omega)
    have h1 : ((List.range n).map f)[m]? = none := by
      rw [List.getElem?_map, hr]
      rfl
    have h2 : ((List.range n).map (fun j => if j = i then v else f j))[m]? = none := by
      rw [List.getElem?_map, hr]
      rfl
    rw [h2]
    by_cases hmi : i = m
    · subst hmi
      rw [if_pos rfl]
      rw [if_neg (by rw [List.length_map, List.length_range]; omega)]
    · rw [if_neg hmi]
      exact h1

theorem replicate_eq_map_range (n : Nat) (x : α) :
    List.replicate n x = (List.range n).map (fun _ => x) := by
  apply List.ext_getElem?
  intro m
  by_cases hm : m < n
  · rw [List.getElem?_map, List.getElem?_range hm, List.getElem?_replicate, if_pos hm]
    rfl
  · have hr : (List.range n)[m]? = none :=
      List.getElem?_eq_none (by rw [List.length_range]; omega)
    rw [List.getElem?_map, hr, List.getElem?_replicate, if_neg hm]
    rfl

theorem set_replicate_none : ∀ (c k : Nat),
    (List.replicate c (none : Option α)).set k none = List.replicate c none := by
  intro c
  induction c with
  | zero => intro k; rfl
  | succ c ih =>
    intro k
    cases k with
    | zero => rfl
    | succ k =>
      rw [List.replicate_succ, List.set_cons_succ, ih k]

theorem map_range_congr {n : Nat} (f g : Nat → α) (h : ∀ i, i < n → f i = g i) :
    (List.range n).map f = (List.range n).map g :=
  List.map_congr_left (fun i hi => h i (List.mem_range.mp hi))

theorem get?_replicate_lt {n k : Nat} (x : α) (h : k < n) :
    (List.replicate n x).get? k = some x := by
  rw [List.get?_eq_getElem?, List.getElem?_replicate, if_pos h]

theorem getD_replicate_lt {n k : Nat} (x d : α) (h : k < n) :
    (List.replicate n x).getD k d = x := by
  rw [List.getD, get?_replicate_lt x h]
  rfl

/-- An empty pipeline queue whose head and tail have both advanced `j`
slots (the state of a capacity-`C` queue after `j` pushes and `j` pops). -/
def qEmptyAt (C j : Nat) : queue_t :=
  { buffer := List.replicate C none, capacity := C, size := 0,
    head := j % C, tail := j % C, shutdown := false }

/-- `qEmptyAt C j` right after one push: the single string `x` sits in
slot `j % C`. -/
def qLoadedAt (C j : Nat) (x : Bytes) : queue_t :=
  { buffer := (List.replicate C none).set (j % C) (some x), capacity := C,
    size := 1, head := j % C, tail := (j + 1) % C, shutdown := false }

/-- An empty, shut-down pipeline queue. -/
def qClosedAt (C j : Nat) : queue_t :=
  { buffer := List.replicate C none, capacity := C, size := 0,
    head := j % C, tail := j % C, shutdown := true }

theorem queue_mk_eq_qEmptyAt (C : Nat) : queue_mk C = qEmptyAt C 0 := by
  simp [queue_mk, qEmptyAt, Nat.zero_mod]

theorem push_qEmptyAt (C j : Nat) (x : Bytes) (hC : 0 < C) :
    queue_push (qEmptyAt C j) x = (pushResult.ok, qLoadedAt C j x) := by
  have ht : (j % C + 1) % C = (j + 1) % C := Nat.mod_add_mod j C 1
  simp only [queue_push, qEmptyAt, qLoadedAt, Bool.false_eq_true, if_false]
  rw [if_neg (by omega : ¬ C ≤ 0), ht]

theorem pop_qLoadedAt (C j : Nat) (x : Bytes) (hC : 0 < C) :
    queue_pop (qLoadedAt C j x) = (popResult.ok x, qEmptyAt C (j + 1)) := by
  have hjC : j % C < (List.replicate C (none : Option Bytes)).length := by
    rw [List.length_replicate]
    exact Nat.mod_lt j hC
  have ht : (j % C + 1) % C = (j + 1) % C := Nat.mod_add_mod j C 1
  have hbuf : ((List.replicate C (none : Option Bytes)).set (j % C) (some x)).set
      (j % C) none = List.replicate C none := by
    rw [List.set_set (some x) none _ _, set_replicate_none]
  have hval : ((List.replicate C (none : Option Bytes)).set (j % C)
      (some x)).getD (j % C) none = some x := getD_set_self hjC
  simp only [queue_pop, qLoadedAt, qEmptyAt]
  rw [if_neg (by simp), if_neg (by simp), hval, hbuf, ht]
  rfl

theorem pop_qClosedAt (C j : Nat) :
    queue_pop (qClosedAt C j) = (popResult.shutdown, qClosedAt C j) := by
  simp [queue_pop, qClosedAt]

theorem shutdown_qEmptyAt (C j : Nat) :
    queue_shutdown (qEmptyAt C j) = qClosedAt C j := rfl

theorem sysRun_nil (fs : List (Bytes → Bytes)) (s : sys) : sysRun fs [] s = s := rfl

theorem sysRun_cons (fs : List (Bytes → Bytes)) (t : tid) (r : List tid) (s : sys) :
    sysRun fs (t :: r) s = sysRun fs r (sysStep fs t s) := rfl

theorem sysRun_append (fs : List (Bytes → Bytes)) (a b : List tid) (s : sys) :
    sysRun fs (a ++ b) s = sysRun fs b (sysRun fs a s) := by
  rw [sysRun, sysRun, sysRun, List.foldl_append]

/-- The pipeline state after the first `j` input lines have been fully
forwarded to stdout: all queues are empty with their cursors advanced `j`
slots, every worker is at its loop head, and the first `j` transformed
lines have been written. -/
def sigmaSt (L : List Bytes) (fs : List (Bytes → Bytes)) (C j : Nat) : sys :=
  { stdinLines := (L ++ [endBytes]).drop j, readerDone := false,
    queues := List.replicate (fs.length + 1) (qEmptyAt C j),
    workers := List.replicate fs.length ⟨false, wphase.ready⟩,
    outLines := (L.take j).map (chainApply fs),
    writerDone := false }

/-- Mid-round state: line `j` has been read and forwarded through the
first `k` stages, and now sits (transformed `k` times) in queue `k`;
every worker is back at its loop head. -/
def tauSt (L : List Bytes) (fs : List (Bytes → Bytes)) (C j k : Nat) : sys :=
  { stdinLines := (L ++ [endBytes]).drop (j + 1), readerDone := false,
    queues := (List.range (fs.length + 1)).map (fun i =>
      if i < k then qEmptyAt C (j + 1)
      else if i = k then qLoadedAt C j (Fc fs k (L.getD j []))
      else qEmptyAt C j),
    workers := List.replicate fs.length ⟨false, wphase.ready⟩,
    outLines := (L.take j).map (chainApply fs),
    writerDone := false }

/-- Mid-round state between worker `k`'s pop and its push: the worker
holds the transformed line in its `pushing` phase. -/
def tauMid (L : List Bytes) (fs : List (Bytes → Bytes)) (C j k : Nat) : sys :=
  { stdinLines := (L ++ [endBytes]).drop (j + 1), readerDone := false,
    queues := (List.range (fs.length + 1)).map (fun i =>
      if i ≤ k then qEmptyAt C (j + 1) else qEmptyAt C j),
    workers := (List.range fs.length).map (fun i =>
      if i = k then ⟨false, wphase.pushing (Fc fs (k + 1) (L.getD j []))⟩
      else ⟨false, wphase.ready⟩),
    outLines := (L.take j).map (chainApply fs),
    writerDone := false }

/-- The reader on the state `sigmaSt j` with a payload line left reads
line `j` and pushes it onto queue `0`. -/
theorem readerStep_sigma (L : List Bytes) (fs : List (Bytes → Bytes)) (C j : Nat)
    (hC : 0 < C) (hE : endBytes ∉ L) (hj : j < L.length) :
    readerStep (sigmaSt L fs C j) = tauSt L fs C j 0 := by
  have hplt : j < (L ++ [endBytes]).length := by
    rw [List.length_append, List.length_cons]
    omega
  have hdrop : (sigmaSt L fs C j).stdinLines
      = L.getD j [] :: (L ++ [endBytes]).drop (j + 1) := by
    show (L ++ [endBytes]).drop j = _
    rw [List.drop_eq_getElem_cons hplt, List.getElem_append_left hj,
      List.getD_eq_getElem L [] hj]
  have hne : L.getD j [] ≠ endBytes := fun heq => hE (heq ▸ mem_of_getD hj)
  have hq0 : qAt (sigmaSt L fs C j) 0 = qEmptyAt C j := by
    show (List.replicate (fs.length + 1) (qEmptyAt C j)).getD 0 default = _
    exact getD_replicate_lt _ _ (by omega)
  have hpush := push_qEmptyAt C j (L.getD j []) hC
  have hstep : readerStep (sigmaSt L fs C j)
      = { sigmaSt L fs C j with
            stdinLines := (L ++ [endBytes]).drop (j + 1),
            queues := (sigmaSt L fs C j).queues.set 0 (qLoadedAt C j (L.getD j [])) } := by
    simp only [readerStep, show (sigmaSt L fs C j).readerDone = false from rfl,
      Bool.false_eq_true, if_false, hdrop, if_neg hne, hq0, hpush]
  rw [hstep]
  show ({ sigmaSt L fs C j with
            stdinLines := (L ++ [endBytes]).drop (j + 1),
            queues := (List.replicate (fs.length + 1) (qEmptyAt C j)).set 0
              (qLoadedAt C j (L.getD j [])) } : sys) = _
  rw [tauSt]
  have hqs : (List.replicate (fs.length + 1) (qEmptyAt C j)).set 0
      (qLoadedAt C j (L.getD j []))
      = (List.range (fs.length + 1)).map (fun i =>
          if i < 0 then qEmptyAt C (j + 1)
          else if i = 0 then qLoadedAt C j (Fc fs 0 (L.getD j []))
          else qEmptyAt C j) := by
    rw [replicate_eq_map_range, set_map_range _ _ (by omega : 0 < fs.length + 1)]
    apply map_range_congr
    intro i _
    by_cases hi0 : i = 0
    · rw [if_pos hi0, if_neg (by omega), if_pos hi0]
      rfl
    · rw [if_neg hi0, if_neg (by omega), if_neg hi0]
  rw [hqs]
  rfl

/-- Worker `k` at the mid-round state pops its loaded input queue and
moves to its `pushing` phase. -/
theorem workerStep_tau_pop (L : List Bytes) (fs : List (Bytes → Bytes)) (C j k : Nat)
    (hC : 0 < C) (hk : k < fs.length) :
    workerStep fs k (tauSt L fs C j k) = tauMid L fs C j k := by
  have hget : (tauSt L fs C j k).workers.get? k = some ⟨false, wphase.ready⟩ :=
    get?_replicate_lt _ hk
  have hqk : qAt (tauSt L fs C j k) k = qLoadedAt C j (Fc fs k (L.getD j [])) := by
    show ((List.range (fs.length + 1)).map _).getD k default = _
    rw [getD_map_range _ _ (by omega : k < fs.length + 1)]
    rw [if_neg (lt_irrefl k), if_pos rfl]
  have hpop := pop_qLoadedAt C j (Fc fs k (L.getD j [])) hC
  have hstep : workerStep fs k (tauSt L fs C j k)
      = { tauSt L fs C j k with
            queues := (tauSt L fs C j k).queues.set k (qEmptyAt C (j + 1)),
            workers := (tauSt L fs C j k).workers.set k
              ⟨false, wphase.pushing ((fs.getD k id) (Fc fs k (L.getD j [])))⟩ } := by
    simp only [workerStep, hget, hqk, hpop, Bool.false_eq_true, if_false]
  rw [hstep, ← Fc_succ fs k hk (L.getD j [])]
  rw [tauMid]
  have hqs : (tauSt L fs C j k).queues.set k (qEmptyAt C (j + 1))
      = (List.range (fs.length + 1)).map (fun i =>
          if i ≤ k then qEmptyAt C (j + 1) else qEmptyAt C j) := by
    show ((List.range (fs.length + 1)).map _).set k (qEmptyAt C (j + 1)) = _
    rw [set_map_range _ _ (by omega : k < fs.length + 1)]
    apply map_range_congr
    intro i _
    by_cases hik : i = k
    · simp [hik]
    · by_cases hlt : i < k
      · simp [hik, hlt, show i ≤ k from by omega]
      · simp [hik, hlt, show ¬ i ≤ k from by omega]
  have hws : (tauSt L fs C j k).workers.set k
        (⟨false, wphase.pushing (Fc fs (k + 1) (L.getD j []))⟩ : wst)
      = (List.range fs.length).map (fun i =>
          if i = k then ⟨false, wphase.pushing (Fc fs (k + 1) (L.getD j []))⟩
          else ⟨false, wphase.ready⟩) := by
    show (List.replicate fs.length _).set k _ = _
    rw [replicate_eq_map_range, set_map_range _ _ hk]
  rw [hqs, hws]
  rfl

/-- Worker `k` in its `pushing` phase pushes the transformed line onto
queue `k + 1` and returns to its loop head. -/
theorem workerStep_tau_push (L : List Bytes) (fs : List (Bytes → Bytes)) (C j k : Nat)
    (hC : 0 < C) (hk : k < fs.length) :
    workerStep fs k (tauMid L fs C j k) = tauSt L fs C j (k + 1) := by
  have hget : (tauMid L fs C j k).workers.get? k
      = some ⟨false, wphase.pushing (Fc fs (k + 1) (L.getD j []))⟩ := by
    show ((List.range fs.length).map _).get? k = _
    rw [get?_map_range _ hk]
    rw [if_pos rfl]
  have hqk1 : qAt (tauMid L fs C j k) (k + 1) = qEmptyAt C j := by
    show ((List.range (fs.length + 1)).map _).getD (k + 1) default = _
    rw [getD_map_range _ _ (by omega : k + 1 < fs.length + 1)]
    rw [if_neg (by omega : ¬ k + 1 ≤ k)]
  have hpush := push_qEmptyAt C j (Fc fs (k + 1) (L.getD j [])) hC
  have hstep : workerStep fs k (tauMid L fs C j k)
      = { tauMid L fs C j k with
            queues := (tauMid L fs C j k).queues.set (k + 1)
              (qLoadedAt C j (Fc fs (k + 1) (L.getD j []))),
            workers := (tauMid L fs C j k).workers.set k ⟨false, wphase.ready⟩ } := by
    simp only [workerStep, hget, hqk1, hpush, Bool.false_eq_true, if_false]
  rw [hstep, tauSt]
  have hqs : (tauMid L fs C j k).queues.set (k + 1)
        (qLoadedAt C j (Fc fs (k + 1) (L.getD j [])))
      = (List.range (fs.length + 1)).map (fun i =>
          if i < k + 1 then qEmptyAt C (j + 1)
          else if i = k + 1 then qLoadedAt C j (Fc fs (k + 1) (L.getD j []))
          else qEmptyAt C j) := by
    show ((List.range (fs.length + 1)).map _).set (k + 1) _ = _
    rw [set_map_range _ _ (by omega : k + 1 < fs.length + 1)]
    apply map_range_congr
    intro i _
    by_cases hik : i = k + 1
    · simp [hik]
    · by_cases hle : i ≤ k
      · simp [hik, hle, show i < k + 1 from by omega]
      · simp [hik, hle, show ¬ i < k + 1 from by omega]
  have hws : (tauMid L fs C j k).workers.set k (⟨false, wphase.ready⟩ : wst)
      = List.replicate fs.length ⟨false, wphase.ready⟩ := by
    show ((List.range fs.length).map _).set k _ = _
    rw [set_map_range _ _ hk, replicate_eq_map_range]
    apply map_range_congr
    intro i _
    by_cases hik : i = k
    · simp [hik]
    · simp [hik]
  rw [hqs, hws]
  rfl

/-- The writer pops the fully transformed line `j` from the last queue
and appends it to stdout, completing round `j`. -/
theorem writerStep_tau (L : List Bytes) (fs : List (Bytes → Bytes)) (C j : Nat)
    (hC : 0 < C) (hj : j < L.length) :
    writerStep fs.length (tauSt L fs C j fs.length) = sigmaSt L fs C (j + 1) := by
  have hqN : qAt (tauSt L fs C j fs.length) fs.length
      = qLoadedAt C j (Fc fs fs.length (L.getD j [])) := by
    show ((List.range (fs.length + 1)).map _).getD fs.length default = _
    rw [getD_map_range _ _ (by omega : fs.length < fs.length + 1)]
    rw [if_neg (lt_irrefl fs.length), if_pos rfl]
  have hpop := pop_qLoadedAt C j (Fc fs fs.length (L.getD j [])) hC
  have hstep : writerStep fs.length (tauSt L fs C j fs.length)
      = { tauSt L fs C j fs.length with
            queues := (tauSt L fs C j fs.length).queues.set fs.length (qEmptyAt C (j + 1)),
            outLines := (tauSt L fs C j fs.length).outLines
              ++ [Fc fs fs.length (L.getD j [])] } := by
    simp only [writerStep, show (tauSt L fs C j fs.length).writerDone = false from rfl,
      Bool.false_eq_true, if_false, hqN, hpop]
  rw [hstep, sigmaSt]
  have hqs : (tauSt L fs C j fs.length).queues.set fs.length (qEmptyAt C (j + 1))
      = List.replicate (fs.length + 1) (qEmptyAt C (j + 1)) := by
    show ((List.range (fs.length + 1)).map _).set fs.length _ = _
    rw [set_map_range _ _ (by omega : fs.length < fs.length + 1), replicate_eq_map_range]
    apply map_range_congr
    intro i hi
    by_cases hik : i = fs.length
    · simp [hik]
    · simp [hik, show i < fs.length from by omega]
  have hout : (tauSt L fs C j fs.length).outLines ++ [Fc fs fs.length (L.getD j [])]
      = (L.take (j + 1)).map (chainApply fs) := by
    show (L.take j).map (chainApply fs) ++ _ = _
    rw [take_succ_getD L j [] hj, List.map_append, Fc_length]
    rfl
  rw [hqs, hout]
  rfl

/-- The per-round worker schedule: each worker in stage order, twice
(one pop step, one push step). -/
def wSched : Nat → List tid
  | 0 => []
  | k + 1 => wSched k ++ [tid.worker k, tid.worker k]

/-- One full round of the canonical schedule: the reader, then every
worker twice, then the writer. -/
def roundSched (n : Nat) : List tid := tid.reader :: (wSched n ++ [tid.writer])

/-- `r` rounds of the canonical schedule. -/
def fullSched (n : Nat) : Nat → List tid
  | 0 => []
  | r + 1 => fullSched n r ++ roundSched n

/-- Running the worker pairs in stage order forwards line `j` through
the first `k` stages. -/
theorem wSched_run_tau (L : List Bytes) (fs : List (Bytes → Bytes)) (C j : Nat)
    (hC : 0 < C) : ∀ k, k ≤ fs.length →
    sysRun fs (wSched k) (tauSt L fs C j 0) = tauSt L fs C j k := by
  intro k
  induction k with
  | zero => intro _; rfl
  | succ k ih =>
    intro hk
    rw [wSched, sysRun_append, ih (by omega)]
    show workerStep fs k (workerStep fs k (tauSt L fs C j k)) = _
    rw [workerStep_tau_pop L fs C j k hC (by omega),
      workerStep_tau_push L fs C j k hC (by omega)]

/-- One payload round of the canonical schedule forwards input line `j`
all the way to stdout. -/
theorem roundSched_payload (L : List Bytes) (fs : List (Bytes → Bytes)) (C j : Nat)
    (hC : 0 < C) (hE : endBytes ∉ L) (hj : j < L.length) :
    sysRun fs (roundSched fs.length) (sigmaSt L fs C j) = sigmaSt L fs C (j + 1) := by
  rw [roundSched, sysRun_cons]
  show sysRun fs (wSched fs.length ++ [tid.writer]) (readerStep (sigmaSt L fs C j)) = _
  rw [readerStep_sigma L fs C j hC hE hj, sysRun_append,
    wSched_run_tau L fs C j hC fs.length le_rfl]
  show writerStep fs.length (tauSt L fs C j fs.length) = _
  exact writerStep_tau L fs C j hC hj

/-- Running `j` payload rounds forwards the first `j` input lines. -/
theorem fullSched_payload (L : List Bytes) (fs : List (Bytes → Bytes)) (C : Nat)
    (hC : 0 < C) (hE : endBytes ∉ L) : ∀ j, j ≤ L.length →
    sysRun fs (fullSched fs.length j) (sigmaSt L fs C 0) = sigmaSt L fs C j := by
  intro j
  induction j with
  | zero => intro _; rfl
  | succ j ih =>
    intro hj
    rw [fullSched, sysRun_append, ih (by omega),
      roundSched_payload L fs C j hC hE (by omega)]

/-- The shutdown-cascade state: the `<END>` sentinel has been consumed,
queues `0..k` are shut down, workers `0..k-1` have exited, and every
transformed input line has been written. -/
def rhoSt (L : List Bytes) (fs : List (Bytes → Bytes)) (C k : Nat) : sys :=
  { stdinLines := [], readerDone := true,
    queues := (List.range (fs.length + 1)).map (fun i =>
      if i ≤ k then qClosedAt C L.length else qEmptyAt C L.length),
    workers := (List.range fs.length).map (fun i =>
      if i < k then ⟨false, wphase.done⟩ else ⟨false, wphase.ready⟩),
    outLines := L.map (chainApply fs),
    writerDone := false }

/-- Cascade mid-state: worker `k` has seen the end of its input and is
about to shut down its output queue. -/
def rhoMid (L : List Bytes) (fs : List (Bytes → Bytes)) (C k : Nat) : sys :=
  { stdinLines := [], readerDone := true,
    queues := (List.range (fs.length + 1)).map (fun i =>
      if i ≤ k then qClosedAt C L.length else qEmptyAt C L.length),
    workers := (List.range fs.length).map (fun i =>
      if i = k then ⟨false, wphase.closing⟩
      else if i < k then ⟨false, wphase.done⟩ else ⟨false, wphase.ready⟩),
    outLines := L.map (chainApply fs),
    writerDone := false }

/-- After all payload lines, the reader consumes the `<END>` sentinel,
shuts down queue `0` and exits. -/
theorem readerStep_close (L : List Bytes) (fs : List (Bytes → Bytes)) (C : Nat) :
    readerStep (sigmaSt L fs C L.length) = rhoSt L fs C 0 := by
  have hdrop : (sigmaSt L fs C L.length).stdinLines = endBytes :: [] := by
    show (L ++ [endBytes]).drop L.length = _
    exact List.drop_left L [endBytes]
  have hq0 : qAt (sigmaSt L fs C L.length) 0 = qEmptyAt C L.length := by
    show (List.replicate (fs.length + 1) (qEmptyAt C L.length)).getD 0 default = _
    exact getD_replicate_lt _ _ (by omega)
  have hstep : readerStep (sigmaSt L fs C L.length)
      = { sigmaSt L fs C L.length with
            stdinLines := [], readerDone := true,
            queues := (sigmaSt L fs C L.length).queues.set 0 (qClosedAt C L.length) } := by
    simp only [readerStep, show (sigmaSt L fs C L.length).readerDone = false from rfl,
      Bool.false_eq_true, if_false, if_true, hdrop, hq0, shutdown_qEmptyAt]
  rw [hstep, rhoSt]
  have hqs : (sigmaSt L fs C L.length).queues.set 0 (qClosedAt C L.length)
      = (List.range (fs.length + 1)).map (fun i =>
          if i ≤ 0 then qClosedAt C L.length else qEmptyAt C L.length) := by
    show (List.replicate (fs.length + 1) _).set 0 _ = _
    rw [replicate_eq_map_range, set_map_range _ _ (by omega : 0 < fs.length + 1)]
    apply map_range_congr
    intro i _
    by_cases hi0 : i = 0
    · simp [hi0]
    · simp [hi0, show ¬ i ≤ 0 from by omega]
  have hws : (sigmaSt L fs C L.length).workers
      = (List.range fs.length).map (fun i =>
          if i < 0 then ⟨false, wphase.done⟩ else ⟨false, wphase.ready⟩) := by
    show List.replicate fs.length _ = _
    rw [replicate_eq_map_range]
    apply map_range_congr
    intro i _
    rw [if_neg (Nat.not_lt_zero i)]
  have hout : (sigmaSt L fs C L.length).outLines = L.map (chainApply fs) := by
    show (L.take L.length).map (chainApply fs) = _
    rw [List.take_length L]
  rw [hqs]
  show ({ sigmaSt L fs C L.length with
            stdinLines := [], readerDone := true,
            queues := (List.range (fs.length + 1)).map (fun i =>
              if i ≤ 0 then qClosedAt C L.length else qEmptyAt C L.length) } : sys) = _
  rw [sys.mk.injEq]
  exact ⟨rfl, rfl, rfl, hws, hout, rfl⟩

/-- Worker `k` pops its shut-down, drained input queue and moves to its
closing phase. -/
theorem workerStep_rho_pop (L : List Bytes) (fs : List (Bytes → Bytes)) (C k : Nat)
    (hk : k < fs.length) :
    workerStep fs k (rhoSt L fs C k) = rhoMid L fs C k := by
  have hget : (rhoSt L fs C k).workers.get? k = some ⟨false, wphase.ready⟩ := by
    show ((List.range fs.length).map _).get? k = _
    rw [get?_map_range _ hk, if_neg (lt_irrefl k)]
  have hqk : qAt (rhoSt L fs C k) k = qClosedAt C L.length := by
    show ((List.range (fs.length + 1)).map _).getD k default = _
    rw [getD_map_range _ _ (by omega : k < fs.length + 1), if_pos le_rfl]
  have hpop := pop_qClosedAt C L.length
  have hstep : workerStep fs k (rhoSt L fs C k)
      = { rhoSt L fs C k with
            queues := (rhoSt L fs C k).queues.set k (qClosedAt C L.length),
            workers := (rhoSt L fs C k).workers.set k ⟨false, wphase.closing⟩ } := by
    simp only [workerStep, hget, hqk, hpop, Bool.false_eq_true, if_false]
  rw [hstep, rhoMid]
  have hqs : (rhoSt L fs C k).queues.set k (qClosedAt C L.length)
      = (List.range (fs.length + 1)).map (fun i =>
          if i ≤ k then qClosedAt C L.length else qEmptyAt C L.length) := by
    show ((List.range (fs.length + 1)).map _).set k _ = _
    rw [set_map_range _ _ (by omega : k < fs.length + 1)]
    apply map_range_congr
    intro i _
    by_cases hik : i = k
    · simp [hik]
    · simp [hik]
  have hws : (rhoSt L fs C k).workers.set k (⟨false, wphase.closing⟩ : wst)
      = (List.range fs.length).map (fun i =>
          if i = k then ⟨false, wphase.closing⟩
          else if i < k then ⟨false, wphase.done⟩ else ⟨false, wphase.ready⟩) := by
    show ((List.range fs.length).map _).set k _ = _
    rw [set_map_range _ _ hk]
  rw [hqs, hws]
  rfl

/-- Worker `k` shuts down its output queue and exits. -/
theorem workerStep_rho_close (L : List Bytes) (fs : List (Bytes → Bytes)) (C k : Nat)
    (hk : k < fs.length) :
    workerStep fs k (rhoMid L fs C k) = rhoSt L fs C (k + 1) := by
  have hget : (rhoMid L fs C k).workers.get? k = some ⟨false, wphase.closing⟩ := by
    show ((List.range fs.length).map _).get? k = _
    rw [get?_map_range _ hk, if_pos rfl]
  have hqk1 : qAt (rhoMid L fs C k) (k + 1) = qEmptyAt C L.length := by
    show ((List.range (fs.length + 1)).map _).getD (k + 1) default = _
    rw [getD_map_range _ _ (by omega : k + 1 < fs.length + 1),
      if_neg (by omega : ¬ k + 1 ≤ k)]
  have hstep : workerStep fs k (rhoMid L fs C k)
      = { rhoMid L fs C k with
            queues := (rhoMid L fs C k).queues.set (k + 1) (qClosedAt C L.length),
            workers := (rhoMid L fs C k).workers.set k ⟨false, wphase.done⟩ } := by
    simp only [workerStep, hget, hqk1, shutdown_qEmptyAt]
  rw [hstep, rhoSt]
  have hqs : (rhoMid L fs C k).queues.set (k + 1) (qClosedAt C L.length)
      = (List.range (fs.length + 1)).map (fun i =>
          if i ≤ k + 1 then qClosedAt C L.length else qEmptyAt C L.length) := by
    show ((List.range (fs.length + 1)).map _).set (k + 1) _ = _
    rw [set_map_range _ _ (by omega : k + 1 < fs.length + 1)]
    apply map_range_congr
    intro i _
    by_cases hik : i = k + 1
    · simp [hik]
    · by_cases hle : i ≤ k
      · simp [hik, hle, show i ≤ k + 1 from by omega]
      · simp [hik, hle, show ¬ i ≤ k + 1 from by omega]
  have hws : (rhoMid L fs C k).workers.set k (⟨false, wphase.done⟩ : wst)
      = (List.range fs.length).map (fun i =>
          if i < k + 1 then ⟨false, wphase.done⟩ else ⟨false, wphase.ready⟩) := by
    show ((List.range fs.length).map _).set k _ = _
    rw [set_map_range _ _ hk]
    apply map_range_congr
    intro i _
    by_cases hik : i = k
    · simp [hik]
    · by_cases hlt : i < k
      · simp [hik, hlt, show i < k + 1 from by omega]
      · simp [hik, hlt, show ¬ i < k + 1 from by omega]
  rw [hqs, hws]
  rfl

/-- Running the worker pairs in stage order cascades the shutdown through
the first `k` stages. -/
theorem wSched_run_rho (L : List Bytes) (fs : List (Bytes → Bytes)) (C : Nat) :
    ∀ k, k ≤ fs.length →
    sysRun fs (wSched k) (rhoSt L fs C 0) = rhoSt L fs C k := by
  intro k
  induction k with
  | zero => intro _; rfl
  | succ k ih =>
    intro hk
    rw [wSched, sysRun_append, ih (by omega)]
    show workerStep fs k (workerStep fs k (rhoSt L fs C k)) = _
    rw [workerStep_rho_pop L fs C k (by omega),
      workerStep_rho_close L fs C k (by omega)]

/-- The writer pops the shut-down, drained last queue and exits. -/
theorem writerStep_rho (L : List Bytes) (fs : List (Bytes → Bytes)) (C : Nat) :
    writerStep fs.length (rhoSt L fs C fs.length)
      = { rhoSt L fs C fs.length with writerDone := true } := by
  have hqN : qAt (rhoSt L fs C fs.length) fs.length = qClosedAt C L.length := by
    show ((List.range (fs.length + 1)).map _).getD fs.length default = _
    rw [getD_map_range _ _ (by omega : fs.length < fs.length + 1), if_pos le_rfl]
  simp only [writerStep, show (rhoSt L fs C fs.length).writerDone = false from rfl,
    Bool.false_eq_true, if_false, hqN, pop_qClosedAt]

/-- The final round of the canonical schedule: the sentinel is consumed
and the shutdown cascades through every stage to the writer. -/
theorem roundSched_close (L : List Bytes) (fs : List (Bytes → Bytes)) (C : Nat) :
    sysRun fs (roundSched fs.length) (sigmaSt L fs C L.length)
      = { rhoSt L fs C fs.length with writerDone := true } := by
  rw [roundSched, sysRun_cons]
  show sysRun fs (wSched fs.length ++ [tid.writer]) (readerStep (sigmaSt L fs C L.length)) = _
  rw [readerStep_close L fs C, sysRun_append, wSched_run_rho L fs C fs.length le_rfl]
  show writerStep fs.length (rhoSt L fs C fs.length) = _
  exact writerStep_rho L fs C

/-- The assembled pipeline is the `j = 0` inter-round state. -/
theorem sysInit_eq_sigma (L : List Bytes) (fs : List (Bytes → Bytes)) (C : Nat) :
    sysInit L fs.length C = sigmaSt L fs C 0 := by
  rw [sysInit, sigmaSt, queue_mk_eq_qEmptyAt]
  rfl

/-- On the canonical schedule of `|L| + 1` rounds the generated pipeline
runs to completion: the writer (the last thread `main` joins) exits. -/
theorem pipeline_terminating_run (L : List Bytes) (fs : List (Bytes → Bytes)) (C : Nat)
    (hC : 0 < C) (hE : endBytes ∉ L) :
    (sysRun fs (fullSched fs.length (L.length + 1)) (sysInit L fs.length C)).writerDone
      = true := by
  rw [sysInit_eq_sigma,
    show fullSched fs.length (L.length + 1)
      = fullSched fs.length L.length ++ roundSched fs.length from rfl,
    sysRun_append, fullSched_payload L fs C hC hE L.length le_rfl,
    roundSched_close L fs C]

/-- **C8** (amended).  End-to-end no-loss and ordering, for the pipeline
assembled by the generated `main` (build.sh lines 291-341), in which the
only shutdown path is the forward cascade reader → queue 0 → worker →
… → last queue → writer: for every well-formed input (payload lines `L`
with no line equal to the `<END>` sentinel, followed by `<END>`), every
stage chain `fs` and every queue capacity `C > 0`,
(1) on EVERY schedule in which the writer has exited, the written lines
are exactly `L` mapped through the composition of the stage transforms,
in input order — one output line per input line, none lost, duplicated
or reordered — and every worker and the reader have also exited, so
`main`'s joins return and it reaches `return 0`; and
(2) the writer does exit on the canonical schedule that forwards one
line per round, so the pipeline terminates.
(The `main_backup.c` assembly instead shuts every queue down right after
joining the reader, which loses in-flight lines — see the
counterexample.) -/
theorem C8_no_line_lost (L : List Bytes) (fs : List (Bytes → Bytes)) (C : Nat)
    (hC : 0 < C) (hE : endBytes ∉ L) :
    (∀ sched : List tid,
        (sysRun fs sched (sysInit L fs.length C)).writerDone = true →
        (sysRun fs sched (sysInit L fs.length C)).outLines = L.map (chainApply fs) ∧
        (∀ i, i < fs.length →
          (wAt (sysRun fs sched (sysInit L fs.length C)) i).phase = wphase.done) ∧
        (sysRun fs sched (sysInit L fs.length C)).readerDone = true) ∧
    (sysRun fs (fullSched fs.length (L.length + 1)) (sysInit L fs.length C)).writerDone
      = true := by
  constructor
  · intro sched hw
    exact sysInv_terminal L fs C _
      (sysInv_run L fs C hE sched _ (sysInv_init L fs C hC)) hw
  · exact pipeline_terminating_run L fs C hC hE

/-- C8 witness: two lines `a`, `b` through one `upper` stage with
capacity-2 queues; the canonical three-round schedule terminates and
writes exactly `A`, `B`. -/
theorem C8_no_line_lost_witness :
    0 < 2 ∧ endBytes ∉ [[97], [98]] ∧
    (sysRun [transform_upper] (fullSched 1 3) (sysInit [[97], [98]] 1 2)).writerDone
      = true ∧
    (sysRun [transform_upper] (fullSched 1 3) (sysInit [[97], [98]] 1 2)).outLines
      = [[65], [66]] := by
  have h := C8_no_line_lost [[97], [98]] [transform_upper] 2 (by decide) (by decide)
  refine ⟨by decide, by decide, h.2, ?_⟩
  have hout := (h.1 (fullSched 1 3) h.2).1
  exact hout.trans (by decide)
